import Mathlib

/-!
Verification of the BVH construction core of `src/main.rs`.

The embedding is a shallow one:

* `f32` coordinates are modelled as exact rationals `ℚ` (the algorithm only
  uses `+`, `-`, `/ 2`, `min`, `max` and `<`, all order-compatible);
* Rust `Vec` indexing (which panics when out of range) and the `usize`
  subtraction `j -= 1` (which panics on underflow in a debug build, and in a
  release build wraps around so that the immediately following `swap` is out
  of bounds) are modelled with `Option`: `none` is a construction failure;
* the recursion of `BVH::subdivide`, which is not structurally decreasing,
  is modelled with an explicit fuel parameter; running out of fuel also
  yields `none`, so `some` results are exactly the terminating, panic-free
  executions of the Rust code.
-/

set_option maxHeartbeats 1000000

namespace BvhSpec

/-- `nannou::glam::Vec3`, with `f32` replaced by `ℚ`. -/
structure Vec3 where
  x : ℚ
  y : ℚ
  z : ℚ
deriving DecidableEq, Repr

/-- Componentwise minimum (`glam::Vec3::min`). -/
def Vec3.min (a b : Vec3) : Vec3 :=
  ⟨Min.min a.x b.x, Min.min a.y b.y, Min.min a.z b.z⟩

/-- Componentwise maximum (`glam::Vec3::max`). -/
def Vec3.max (a b : Vec3) : Vec3 :=
  ⟨Max.max a.x b.x, Max.max a.y b.y, Max.max a.z b.z⟩

/-- Componentwise subtraction (`glam::Vec3 - Vec3`). -/
def Vec3.sub (a b : Vec3) : Vec3 :=
  ⟨a.x - b.x, a.y - b.y, a.z - b.z⟩

/-- `glam` `Index<usize>` access `v[i]`.  `glam` panics for `i ≥ 3`; the
source only ever indexes with the axis values `0`, `1`, `2` (see
`chooseAxis_lt_three`), so the `i ≥ 3` junk value `0` is never reached. -/
def Vec3.get (v : Vec3) (i : Nat) : ℚ :=
  match i with
  | 0 => v.x
  | 1 => v.y
  | 2 => v.z
  | _ => 0

/-- `struct AABB { lb: Vec3, ub: Vec3 }`. -/
structure AABB where
  lb : Vec3
  ub : Vec3
deriving DecidableEq, Repr

/-- `AABB::default()`: both corners at the origin. -/
def AABB.default : AABB := ⟨⟨0, 0, 0⟩, ⟨0, 0, 0⟩⟩

/-- `AABB::union`: componentwise min of lower corners, max of upper corners. -/
def AABB.union (a b : AABB) : AABB :=
  ⟨a.lb.min b.lb, a.ub.max b.ub⟩

/-- `struct Circle { translation: Vec3, radius: f32 }`. -/
structure Circle where
  translation : Vec3
  radius : ℚ
deriving DecidableEq, Repr

/-- `Circle::aabb`: the cube `translation ± radius`. -/
def Circle.aabb (c : Circle) : AABB :=
  ⟨⟨c.translation.x - c.radius, c.translation.y - c.radius, c.translation.z - c.radius⟩,
   ⟨c.translation.x + c.radius, c.translation.y + c.radius, c.translation.z + c.radius⟩⟩

/-- `enum BVHNode`.  The Rust field `end` is a Lean keyword and is renamed
`stop`; it is exclusive, the leaf range is `[start, stop)`. -/
inductive BVHNode where
  | internal (bounds : AABB) (left right : Nat)
  | leaf (bounds : AABB) (start stop : Nat)
deriving DecidableEq, Repr

/-- `BVHNode::bounds`. -/
def BVHNode.bounds : BVHNode → AABB
  | .internal b _ _ => b
  | .leaf b _ _ => b

/-- `struct BVH { nodes: Vec<BVHNode>, circles: Vec<Circle> }`. -/
structure BVH where
  nodes : List BVHNode
  circles : List Circle
deriving DecidableEq, Repr

/-- Body of the loop `for i in start+1..end { new_bounds = new_bounds.union(...) }`
inside `BVH::compute_bounds`, with the remaining iteration count `stop - i` as a
structural counter; `none` models the panic of an out-of-range `self.circles[i]`. -/
def boundsFoldGo (circles : List Circle) : Nat → AABB → Nat → Option AABB
  | 0, acc, _ => some acc
  | Nat.succ n, acc, i =>
    match circles[i]? with
    | some c => boundsFoldGo circles n (acc.union c.aabb) (i + 1)
    | none => none

/-- The loop `for i in start+1..end` of `BVH::compute_bounds`, folding
`AABB::union` over `circles[i]` for `i ∈ [i, stop)`. -/
def boundsFold (circles : List Circle) (acc : AABB) (i stop : Nat) : Option AABB :=
  boundsFoldGo circles (stop - i) acc i

/-- The leaf branch of `BVH::compute_bounds`: `self.circles[start].aabb()`
followed by the union fold over `start+1..end`. -/
def rangeBounds (circles : List Circle) (start stop : Nat) : Option AABB :=
  match circles[start]? with
  | some c => boundsFold circles c.aabb (start + 1) stop
  | none => none

/-- `BVH::compute_bounds`. -/
def computeBounds (bvh : BVH) (node_idx : Nat) : Option BVH :=
  match bvh.nodes[node_idx]? with
  | some (.internal _ left right) =>
    match bvh.nodes[left]?, bvh.nodes[right]? with
    | some l, some r =>
      some { bvh with
               nodes := bvh.nodes.set node_idx
                 (.internal (l.bounds.union r.bounds) left right) }
    | _, _ => none
  | some (.leaf _ start stop) =>
    match rangeBounds bvh.circles start stop with
    | some b => some { bvh with nodes := bvh.nodes.set node_idx (.leaf b start stop) }
    | none => none
  | none => none

/-- `Vec::swap(i, j)`; `none` models the out-of-bounds panic. -/
def listSwap (l : List Circle) (i j : Nat) : Option (List Circle) :=
  match l[i]?, l[j]? with
  | some a, some b => some ((l.set i b).set j a)
  | _, _ => none

/-- The axis selection of `BVH::subdivide`:
`axis = 0; if extent.y > extent.x { axis = 1 }; if extent.z > extent[axis] { axis = 2 }`. -/
def chooseAxis (extent : Vec3) : Nat :=
  let axis := if extent.y > extent.x then 1 else 0
  if extent.z > extent.get axis then 2 else axis

/-- The in-place two-pointer partition loop of `BVH::subdivide`:
`while i <= j { if circles[i][axis] < split { i += 1 } else { swap(i, j); j -= 1 } }`.
When `j = 0` the Rust `j -= 1` on `usize` underflows: a debug build panics
there, a release build wraps `j` to `usize::MAX` and panics on the next
`swap(i, j)`; either way the program aborts, modelled as `none`.
The loop is driven by the structural counter `n = j + 1 - i`: the loop
condition `i <= j` is exactly `n ≠ 0`, and each iteration (either `i += 1`
or `j -= 1`) decreases `n` by one. -/
def partitionGo (axis : Nat) (split : ℚ) :
    Nat → List Circle → Nat → Nat → Option (Nat × List Circle)
  | 0, circles, i, _ => some (i, circles)
  | Nat.succ n, circles, i, j =>
    match circles[i]? with
    | none => none
    | some c =>
      if c.translation.get axis < split then
        partitionGo axis split n circles (i + 1) j
      else
        match listSwap circles i j with
        | none => none
        | some circles2 =>
          if j = 0 then none
          else partitionGo axis split n circles2 i (j - 1)

/-- The partition loop of `BVH::subdivide`, entered at `i = start`,
`j = end - 1`. -/
def partitionLoop (circles : List Circle) (axis : Nat) (split : ℚ) (i j : Nat) :
    Option (Nat × List Circle) :=
  partitionGo axis split (j + 1 - i) circles i j

/-- `BVH::subdivide`, with fuel for the non-structural recursion. -/
def subdivide (fuel : Nat) (bvh : BVH) (node_idx threshold : Nat) : Option BVH :=
  match fuel with
  | 0 => none
  | Nat.succ fuel =>
    match bvh.nodes[node_idx]? with
    | none => none
    | some (.internal _ left right) =>
      match subdivide fuel bvh left threshold with
      | none => none
      | some bvh1 => subdivide fuel bvh1 right threshold
    | some (.leaf bounds start stop) =>
      if stop - start ≤ threshold then some bvh
      else
        let extent := bounds.ub.sub bounds.lb
        let axis := chooseAxis extent
        let split := bounds.lb.get axis + extent.get axis / 2
        match partitionLoop bvh.circles axis split start (stop - 1) with
        | none => none
        | some (i, circles2) =>
          let bvh1 : BVH := { bvh with circles := circles2 }
          if i = stop - 1 ∨ i = start then some bvh1
          else
            let l := bvh1.nodes.length
            let bvh2 : BVH := { bvh1 with nodes := bvh1.nodes ++ [.leaf AABB.default start i] }
            let r := bvh2.nodes.length
            let bvh3 : BVH := { bvh2 with nodes := bvh2.nodes ++ [.leaf AABB.default i stop] }
            match computeBounds bvh3 l with
            | none => none
            | some bvh4 =>
              match computeBounds bvh4 r with
              | none => none
              | some bvh5 =>
                match subdivide fuel bvh5 l threshold with
                | none => none
                | some bvh6 =>
                  match subdivide fuel bvh6 r threshold with
                  | none => none
                  | some bvh7 =>
                    computeBounds
                      { bvh7 with nodes := bvh7.nodes.set node_idx (.internal AABB.default l r) }
                      node_idx

/-- The construction entry point with the leaf threshold as a parameter
(the spec's `build(primitives, leaf_threshold)`); `BVH::new` instantiates
it with threshold `2`. -/
def BVH.build (fuel : Nat) (circles : List Circle) (threshold : Nat) : Option BVH :=
  let bvh : BVH := { nodes := [.leaf AABB.default 0 circles.length], circles := circles }
  match computeBounds bvh 0 with
  | none => none
  | some bvh1 => subdivide fuel bvh1 0 threshold

/-- `BVH::new`: a single leaf over the whole array, bounds pass, then
subdivision with the hard-coded threshold `2`. -/
def BVH.new (fuel : Nat) (circles : List Circle) : Option BVH :=
  BVH.build fuel circles 2

/-! ### Specification-side definitions

These are the mathematical notions the claims are stated with; they are
independent of how `compute_bounds`/`subdivide` traverse the data. -/

/-- The sub-list `circles[s], …, circles[e-1]`. -/
def slice (l : List Circle) (s e : Nat) : List Circle :=
  (l.drop s).take (e - s)

/-- Fold step for the union of a list of boxes, with an explicit empty
accumulator. -/
def unionAcc (acc : Option AABB) (b : AABB) : Option AABB :=
  some (match acc with
        | none => b
        | some a => a.union b)

/-- The union of a list of boxes (`none` for the empty list). -/
def unionOfBoxes (boxes : List AABB) : Option AABB :=
  boxes.foldl unionAcc none

/-- The union of the bounding boxes of the primitives in `[s, e)` — the
spec's description of a leaf's bounds. -/
def unionOfRange (circles : List Circle) (s e : Nat) : Option AABB :=
  unionOfBoxes ((slice circles s e).map Circle.aabb)

/-- How many circles with index in `[s, s + n)` lie strictly below `split`
on `axis` (structural counter `n`). -/
def countBelowGo (circles : List Circle) (axis : Nat) (split : ℚ) : Nat → Nat → Nat
  | 0, _ => 0
  | Nat.succ n, s =>
    (match circles[s]? with
     | some c => if c.translation.get axis < split then 1 else 0
     | none => 0) + countBelowGo circles axis split n (s + 1)

/-- How many circles with index in `[s, e)` lie strictly below `split` on
`axis`. -/
def countBelow (circles : List Circle) (axis : Nat) (split : ℚ) (s e : Nat) : Nat :=
  countBelowGo circles axis split (e - s) s

/-- The degenerate-split condition for a leaf `(b, s, e)`: recomputing the
split axis and plane from its bounds `b`, the midpoint partition of its
range is one-sided — no circle lies strictly below the plane, or all but
one do (the partition point would be `start` or `end - 1`). -/
def leafGuardOK (circles : List Circle) (b : AABB) (s e : Nat) : Prop :=
  countBelow circles (chooseAxis (b.ub.sub b.lb))
      (b.lb.get (chooseAxis (b.ub.sub b.lb)) + (b.ub.sub b.lb).get (chooseAxis (b.ub.sub b.lb)) / 2)
      s e = 0 ∨
  countBelow circles (chooseAxis (b.ub.sub b.lb))
      (b.lb.get (chooseAxis (b.ub.sub b.lb)) + (b.ub.sub b.lb).get (chooseAxis (b.ub.sub b.lb)) / 2)
      s e = e - s - 1

/-- All circles in `[s, e)` share one position (identical coordinates on
every axis). -/
def coincidentRange (circles : List Circle) (s e : Nat) : Prop :=
  ∀ k1 k2 c1 c2, s ≤ k1 → k1 < e → s ≤ k2 → k2 < e →
    circles[k1]? = some c1 → circles[k2]? = some c2 →
    c1.translation = c2.translation

/-- Per-node well-formedness: a leaf's stored bounds are what the bounds
pass computes for its (non-empty, in-range) range and the leaf is within
the threshold or degenerate; an internal node's stored bounds are the union
of its children's. -/
def nodeGood (circles : List Circle) (nodes : List BVHNode) (t : Nat) : BVHNode → Prop
  | .leaf b s e =>
    rangeBounds circles s e = some b ∧ s < e ∧ e ≤ circles.length ∧
      (e - s ≤ t ∨ leafGuardOK circles b s e)
  | .internal b l r =>
    ∃ ln rn, nodes[l]? = some ln ∧ nodes[r]? = some rn ∧ b = ln.bounds.union rn.bounds

/-- Claim C3's invariant: every internal node's bounds are the union of its
children's bounds, and every leaf's bounds are the union of the boxes of
the primitives in its range. -/
def boundsCorrect (bvh : BVH) : Prop :=
  ∀ (k : Nat) (nd : BVHNode), bvh.nodes[k]? = some nd →
    match nd with
    | .internal b l r =>
      ∃ ln rn, bvh.nodes[l]? = some ln ∧ bvh.nodes[r]? = some rn ∧ b = ln.bounds.union rn.bounds
    | .leaf b s e => unionOfRange bvh.circles s e = some b

/-- Claim C2's property, as amended: every leaf in the arena respects the
threshold or its midpoint partition is one-sided (the degenerate guard). -/
def thresholdRespect (bvh : BVH) (t : Nat) : Prop :=
  ∀ (k : Nat) (b : AABB) (s e : Nat), bvh.nodes[k]? = some (.leaf b s e) →
    e - s ≤ t ∨ leafGuardOK bvh.circles b s e

/-- The ranges of the leaves reachable from `idx`, in traversal order,
with fuel bounding the depth. -/
def leafRanges (fuel : Nat) (nodes : List BVHNode) (idx : Nat) : List (Nat × Nat) :=
  match fuel with
  | 0 => []
  | Nat.succ fuel =>
    match nodes[idx]? with
    | some (.leaf _ s e) => [(s, e)]
    | some (.internal _ l r) => leafRanges fuel nodes l ++ leafRanges fuel nodes r
    | none => []

/-- `isChain s rs e`: the ranges `rs` are consecutive and cover `[s, e)`
exactly: each starts where the previous one stopped. -/
def isChain : Nat → List (Nat × Nat) → Nat → Prop
  | s, [], e => s = e
  | s, p :: rest, e => p.1 = s ∧ s ≤ p.2 ∧ isChain p.2 rest e

/-- Claim C4's property: the reachable leaf ranges form a chain covering
`[0, n)`, and hence every primitive index lies in exactly one of them. -/
def exactPartition (bvh : BVH) : Prop :=
  isChain 0 (leafRanges bvh.nodes.length bvh.nodes 0) bvh.circles.length ∧
  ∀ k, k < bvh.circles.length →
    (leafRanges bvh.nodes.length bvh.nodes 0).countP
      (fun p => decide (p.1 ≤ k ∧ k < p.2)) = 1

/-- The full postcondition of a successful `subdivide` call on a leaf
`(b, s, e)` at arena slot `idx`:

* the arena only grows, and only slot `idx` among the pre-existing slots
  changes (`nframe`);
* the circles keep their length, are permuted as a whole (`cperm`), and are
  untouched outside `[s, e)` (`cframe`);
* slot `idx` and every appended slot form a closed subtree: children of any
  internal node among them are themselves appended slots with larger
  indices (`closed`);
* every node of that subtree is well-formed (`good`), its leaves have
  ranges inside `[s, e)` (`rangesub`), and the leaf ranges reachable from
  `idx` chain exactly from `s` to `e` (`chain`). -/
structure SubOut (bvh bvh2 : BVH) (idx s e t : Nat) : Prop where
  nlen : bvh.nodes.length ≤ bvh2.nodes.length
  nframe : ∀ k, k ≠ idx → k < bvh.nodes.length → bvh2.nodes[k]? = bvh.nodes[k]?
  clen : bvh2.circles.length = bvh.circles.length
  cframe : ∀ k, k < s ∨ e ≤ k → bvh2.circles[k]? = bvh.circles[k]?
  cperm : bvh2.circles.Perm bvh.circles
  closed : ∀ k b0 l r, (k = idx ∨ bvh.nodes.length ≤ k) →
    bvh2.nodes[k]? = some (.internal b0 l r) →
    k < l ∧ k < r ∧ bvh.nodes.length ≤ l ∧ l < bvh2.nodes.length ∧
      bvh.nodes.length ≤ r ∧ r < bvh2.nodes.length
  good : ∀ k nd, (k = idx ∨ bvh.nodes.length ≤ k) → bvh2.nodes[k]? = some nd →
    nodeGood bvh2.circles bvh2.nodes t nd
  rangesub : ∀ k b0 s1 e1, (k = idx ∨ bvh.nodes.length ≤ k) →
    bvh2.nodes[k]? = some (.leaf b0 s1 e1) → s ≤ s1 ∧ e1 ≤ e
  chain : ∀ fuelR, bvh2.nodes.length - idx ≤ fuelR →
    isChain s (leafRanges fuelR bvh2.nodes idx) e

/-! ### Concrete inputs used by witnesses and counterexamples -/

/-- Three primitives at identical positions — the degenerate input of C1. -/
def coincident3 : List Circle := [⟨⟨0, 0, 0⟩, 1⟩, ⟨⟨0, 0, 0⟩, 1⟩, ⟨⟨0, 0, 0⟩, 1⟩]

/-- The five-primitive scenario of C7: x-coordinates −10, −5, 0, 5, 10,
y = z = 0, radius 1. -/
def scen5 : List Circle :=
  [⟨⟨-10, 0, 0⟩, 1⟩, ⟨⟨-5, 0, 0⟩, 1⟩, ⟨⟨0, 0, 0⟩, 1⟩, ⟨⟨5, 0, 0⟩, 1⟩, ⟨⟨10, 0, 0⟩, 1⟩]

/-- The result of building the C7 scenario (total by defaulting, but proved
equal to the actual `some` result). -/
def scen5Built : BVH := (BVH.new 10 scen5).getD ⟨[], []⟩

/-- Two primitives that differ only in y, with threshold 1 the partition
point is `end - 1` and the guard fires on non-coincident primitives —
C2's counterexample input. -/
def pairY : List Circle := [⟨⟨0, 0, 0⟩, 1⟩, ⟨⟨0, 5, 0⟩, 1⟩]

/-- The result of building `pairY` with threshold 1. -/
def pairYBuilt : BVH := (BVH.build 10 pairY 1).getD ⟨[], []⟩

/-- A one-element primitive list, input of the C10 witness. -/
def oneCircle : List Circle := [⟨⟨0, 0, 0⟩, 1⟩]

/-- A one-leaf tree over `oneCircle`, input of the C10 witness. -/
def cbInput : BVH := { nodes := [.leaf AABB.default 0 1], circles := oneCircle }

/-- The result of `compute_bounds` on `cbInput` (C10 witness). -/
def cbResult : BVH := (computeBounds cbInput 0).getD ⟨[], []⟩

/-! ### Componentwise lemmas about the geometric types -/

theorem Vec3.sub_get (a b : Vec3) (i : Nat) : (a.sub b).get i = a.get i - b.get i := by
  rcases i with _ | _ | _ | i <;> simp [Vec3.sub, Vec3.get]

theorem AABB.union_lb_get (a b : AABB) (i : Nat) :
    (a.union b).lb.get i = Min.min (a.lb.get i) (b.lb.get i) := by
  rcases i with _ | _ | _ | i <;> simp [AABB.union, Vec3.min, Vec3.get]

theorem AABB.union_ub_get (a b : AABB) (i : Nat) :
    (a.union b).ub.get i = Max.max (a.ub.get i) (b.ub.get i) := by
  rcases i with _ | _ | _ | i <;> simp [AABB.union, Vec3.max, Vec3.get]

theorem AABB.union_comm (a b : AABB) : a.union b = b.union a := by
  simp only [AABB.union, Vec3.min, Vec3.max, AABB.mk.injEq, Vec3.mk.injEq]
  refine ⟨⟨min_comm _ _, min_comm _ _, min_comm _ _⟩, max_comm _ _, max_comm _ _, max_comm _ _⟩

theorem AABB.union_assoc (a b c : AABB) : (a.union b).union c = a.union (b.union c) := by
  simp only [AABB.union, Vec3.min, Vec3.max, AABB.mk.injEq, Vec3.mk.injEq]
  refine ⟨⟨min_assoc _ _ _, min_assoc _ _ _, min_assoc _ _ _⟩,
    max_assoc _ _ _, max_assoc _ _ _, max_assoc _ _ _⟩

theorem Circle.aabb_lb_get (c : Circle) (i : Nat) (hi : i < 3) :
    (c.aabb).lb.get i = c.translation.get i - c.radius := by
  rcases i with _ | _ | _ | i
  · simp [Circle.aabb, Vec3.get]
  · simp [Circle.aabb, Vec3.get]
  · simp [Circle.aabb, Vec3.get]
  · omega

theorem Circle.aabb_ub_get (c : Circle) (i : Nat) (hi : i < 3) :
    (c.aabb).ub.get i = c.translation.get i + c.radius := by
  rcases i with _ | _ | _ | i
  · simp [Circle.aabb, Vec3.get]
  · simp [Circle.aabb, Vec3.get]
  · simp [Circle.aabb, Vec3.get]
  · omega

theorem chooseAxis_lt_three (v : Vec3) : chooseAxis v < 3 := by
  simp only [chooseAxis]
  split <;> split <;> omega

/-! ### Lemmas about `slice` -/

theorem slice_getElem? (l : List Circle) (s e k : Nat) (h : k < e - s) :
    (slice l s e)[k]? = l[s + k]? := by
  simp [slice, List.getElem?_take_of_lt h, List.getElem?_drop]

theorem slice_length (l : List Circle) (s e : Nat) (_hs : s ≤ e) (he : e ≤ l.length) :
    (slice l s e).length = e - s := by
  simp [slice]
  omega

theorem slice_eq_append (l : List Circle) (s e : Nat) (hs : s ≤ e) :
    l = l.take s ++ (slice l s e ++ l.drop e) := by
  have h1 : slice l s e ++ (l.drop s).drop (e - s) = l.drop s := by
    simp [slice]
  have h2 : (l.drop s).drop (e - s) = l.drop e := by
    rw [List.drop_drop]
    congr 1
    omega
  rw [h2] at h1
  rw [h1, List.take_append_drop]

theorem slice_congr (l l2 : List Circle) (s e : Nat)
    (h : ∀ k, s ≤ k → k < e → l2[k]? = l[k]?) : slice l2 s e = slice l s e := by
  apply List.ext_getElem?
  intro k
  by_cases hk : k < e - s
  · rw [slice_getElem? _ _ _ _ hk, slice_getElem? _ _ _ _ hk]
    exact h (s + k) (by omega) (by omega)
  · have h2 : ∀ (m : List Circle), (slice m s e)[k]? = none := by
      intro m
      apply List.getElem?_eq_none
      simp [slice]
      omega
    rw [h2, h2]

theorem slice_perm (l l2 : List Circle) (s e : Nat) (hs : s ≤ e)
    (_hlen : l2.length = l.length)
    (hframe : ∀ k, k < s ∨ e ≤ k → l2[k]? = l[k]?)
    (hperm : l2.Perm l) : (slice l2 s e).Perm (slice l s e) := by
  have htake : l2.take s = l.take s := by
    apply List.ext_getElem?
    intro k
    by_cases hk : k < s
    · rw [List.getElem?_take_of_lt hk, List.getElem?_take_of_lt hk]
      exact hframe k (Or.inl hk)
    · rw [List.getElem?_eq_none (by simp; omega), List.getElem?_eq_none (by simp; omega)]
  have hdrop : l2.drop e = l.drop e := by
    apply List.ext_getElem?
    intro k
    rw [List.getElem?_drop, List.getElem?_drop]
    exact hframe (e + k) (Or.inr (by omega))
  have hl : l = l.take s ++ (slice l s e ++ l.drop e) := slice_eq_append l s e hs
  have hl2 : l2 = l.take s ++ (slice l2 s e ++ l.drop e) := by
    conv_lhs => rw [slice_eq_append l2 s e hs]
    rw [htake, hdrop]
  rw [hl, hl2] at hperm
  have h1 := (List.perm_append_left_iff (l.take s)).mp hperm
  exact (List.perm_append_right_iff (l.drop e)).mp h1

/-! ### Lemmas about the bounds fold -/

theorem foldl_unionAcc_some (boxes : List AABB) (a : AABB) :
    boxes.foldl unionAcc (some a) = some (boxes.foldl AABB.union a) := by
  induction boxes generalizing a with
  | nil => rfl
  | cons b rest ih => simp [unionAcc, ih]

theorem boundsFoldGo_eq_foldl (circles : List Circle) :
    ∀ (n i : Nat) (acc : AABB), i + n ≤ circles.length →
      boundsFoldGo circles n acc i =
        some (((slice circles i (i + n)).map Circle.aabb).foldl AABB.union acc) := by
  intro n
  induction n with
  | zero =>
    intro i acc _
    simp [boundsFoldGo, slice]
  | succ n ih =>
    intro i acc h
    have hi : i < circles.length := by omega
    have hc : circles[i]? = some circles[i] := by
      simp [List.getElem?_eq_some_iff, hi]
    have hslice : slice circles i (i + (n + 1)) = circles[i] :: slice circles (i + 1) (i + 1 + n) := by
      have hdrop : circles.drop i = circles[i] :: circles.drop (i + 1) :=
        List.drop_eq_getElem_cons hi
      have ha : i + (n + 1) - i = n + 1 := by omega
      have hb : i + 1 + n - (i + 1) = n := by omega
      simp only [slice, ha, hb]
      rw [hdrop, List.take_succ_cons]
    rw [boundsFoldGo, hc]
    simp only []
    rw [ih (i + 1) (acc.union circles[i].aabb) (by omega), hslice]
    simp

theorem boundsFoldGo_isSome (circles : List Circle) :
    ∀ (n i : Nat) (acc : AABB) (b : AABB), boundsFoldGo circles n acc i = some b →
      n = 0 ∨ i + n ≤ circles.length := by
  intro n
  induction n with
  | zero => intro i acc b _; exact Or.inl rfl
  | succ n ih =>
    intro i acc b h
    rw [boundsFoldGo] at h
    rcases hc : circles[i]? with _ | c
    · rw [hc] at h; exact absurd h (by simp)
    · rw [hc] at h
      simp only [] at h
      have hi : i < circles.length := by
        by_contra hcon
        rw [List.getElem?_eq_none (by omega)] at hc
        exact absurd hc (by simp)
      rcases ih (i + 1) (acc.union c.aabb) b h with h0 | hle
      · omega
      · omega

theorem rangeBounds_eq_unionOfRange (circles : List Circle) (s e : Nat)
    (hs : s < e) (he : e ≤ circles.length) :
    rangeBounds circles s e = unionOfRange circles s e := by
  have hsl : s < circles.length := by omega
  have hc : circles[s]? = some circles[s] := by simp [List.getElem?_eq_some_iff, hsl]
  have hslice : slice circles s e = circles[s] :: slice circles (s + 1) e := by
    have hdrop : circles.drop s = circles[s] :: circles.drop (s + 1) :=
      List.drop_eq_getElem_cons hsl
    have h1 : e - s = (e - (s + 1)) + 1 := by omega
    simp only [slice, h1]
    rw [hdrop, List.take_succ_cons]
  rw [rangeBounds, hc]
  simp only []
  rw [unionOfRange, unionOfBoxes, hslice]
  simp only [List.map_cons, List.foldl_cons]
  have h2 : unionAcc none circles[s].aabb = some circles[s].aabb := rfl
  rw [h2, foldl_unionAcc_some]
  rw [boundsFold]
  have h3 : s + 1 + (e - (s + 1)) = e := by omega
  rw [boundsFoldGo_eq_foldl circles (e - (s + 1)) (s + 1) circles[s].aabb (by omega), h3]

theorem boundsFoldGo_congr (circles circles2 : List Circle) :
    ∀ (n i : Nat) (acc : AABB), (∀ k, i ≤ k → k < i + n → circles2[k]? = circles[k]?) →
      boundsFoldGo circles2 n acc i = boundsFoldGo circles n acc i := by
  intro n
  induction n with
  | zero => intro i acc _; rfl
  | succ n ih =>
    intro i acc h
    rw [boundsFoldGo, boundsFoldGo, h i (by omega) (by omega)]
    cases circles[i]? with
    | none => rfl
    | some c =>
      simp only []
      exact ih (i + 1) (acc.union c.aabb) (fun k h1 h2 => h k (by omega) (by omega))

theorem rangeBounds_congr (circles circles2 : List Circle) (s e : Nat) (hs : s < e)
    (h : ∀ k, s ≤ k → k < e → circles2[k]? = circles[k]?) :
    rangeBounds circles2 s e = rangeBounds circles s e := by
  rw [rangeBounds, rangeBounds, h s (by omega) hs]
  cases circles[s]? with
  | none => rfl
  | some c =>
    simp only [boundsFold]
    exact boundsFoldGo_congr circles circles2 (e - (s + 1)) (s + 1) c.aabb
      (fun k h1 h2 => h k (by omega) (by omega))

theorem unionOfBoxes_perm (b1 b2 : List AABB) (hp : b1.Perm b2) :
    unionOfBoxes b1 = unionOfBoxes b2 := by
  rw [unionOfBoxes, unionOfBoxes]
  apply hp.foldl_eq'
  intro x _ y _ z
  rcases z with _ | a
  · simp only [unionAcc]
    rw [AABB.union_comm]
  · simp only [unionAcc]
    rw [AABB.union_assoc, AABB.union_assoc, AABB.union_comm x y]

theorem rangeBounds_perm (circles circles2 : List Circle) (s e : Nat) (hs : s < e)
    (he : e ≤ circles.length) (he2 : e ≤ circles2.length)
    (hp : (slice circles2 s e).Perm (slice circles s e)) :
    rangeBounds circles2 s e = rangeBounds circles s e := by
  rw [rangeBounds_eq_unionOfRange circles s e hs he,
    rangeBounds_eq_unionOfRange circles2 s e hs he2]
  exact unionOfBoxes_perm _ _ (hp.map Circle.aabb)

/-! ### Containment and attainment of the computed bounds -/

theorem boundsFoldGo_ub (circles : List Circle) (a : Nat) :
    ∀ (n i : Nat) (acc b : AABB), boundsFoldGo circles n acc i = some b →
      (b.ub.get a = acc.ub.get a ∨
        ∃ k c, i ≤ k ∧ k < i + n ∧ circles[k]? = some c ∧ b.ub.get a = (c.aabb).ub.get a) ∧
      acc.ub.get a ≤ b.ub.get a ∧
      (∀ k c, i ≤ k → k < i + n → circles[k]? = some c → (c.aabb).ub.get a ≤ b.ub.get a) := by
  intro n
  induction n with
  | zero =>
    intro i acc b h
    rw [boundsFoldGo] at h
    cases h
    refine ⟨Or.inl rfl, le_refl _, ?_⟩
    intro k c h1 h2
    omega
  | succ n ih =>
    intro i acc b h
    rw [boundsFoldGo] at h
    rcases hc : circles[i]? with _ | c
    · rw [hc] at h; exact absurd h (by simp)
    rw [hc] at h
    simp only [] at h
    obtain ⟨hattain, hle, hall⟩ := ih (i + 1) (acc.union c.aabb) b h
    have hmax : (acc.union c.aabb).ub.get a = Max.max (acc.ub.get a) ((c.aabb).ub.get a) :=
      AABB.union_ub_get acc c.aabb a
    refine ⟨?_, ?_, ?_⟩
    · rcases hattain with heq | ⟨k, c2, hk1, hk2, hk3, hk4⟩
      · rw [hmax] at heq
        rcases max_choice (acc.ub.get a) ((c.aabb).ub.get a) with hm | hm
        · exact Or.inl (by rw [heq, hm])
        · exact Or.inr ⟨i, c, le_refl _, by omega, hc, by rw [heq, hm]⟩
      · exact Or.inr ⟨k, c2, by omega, by omega, hk3, hk4⟩
    · calc acc.ub.get a ≤ (acc.union c.aabb).ub.get a := by rw [hmax]; exact le_max_left _ _
        _ ≤ b.ub.get a := hle
    · intro k c2 h1 h2 h3
      rcases Nat.eq_or_lt_of_le h1 with heq | hlt
      · have h3i : circles[i]? = some c2 := by rw [heq]; exact h3
        rw [hc] at h3i
        injection h3i with h4
        calc (c2.aabb).ub.get a = (c.aabb).ub.get a := by rw [← h4]
          _ ≤ (acc.union c.aabb).ub.get a := by rw [hmax]; exact le_max_right _ _
          _ ≤ b.ub.get a := hle
      · exact hall k c2 (by omega) (by omega) h3

theorem boundsFoldGo_lb (circles : List Circle) (a : Nat) :
    ∀ (n i : Nat) (acc b : AABB), boundsFoldGo circles n acc i = some b →
      b.lb.get a ≤ acc.lb.get a ∧
      (∀ k c, i ≤ k → k < i + n → circles[k]? = some c → b.lb.get a ≤ (c.aabb).lb.get a) := by
  intro n
  induction n with
  | zero =>
    intro i acc b h
    rw [boundsFoldGo] at h
    cases h
    refine ⟨le_refl _, ?_⟩
    intro k c h1 h2
    omega
  | succ n ih =>
    intro i acc b h
    rw [boundsFoldGo] at h
    rcases hc : circles[i]? with _ | c
    · rw [hc] at h; exact absurd h (by simp)
    rw [hc] at h
    simp only [] at h
    obtain ⟨hle, hall⟩ := ih (i + 1) (acc.union c.aabb) b h
    have hmin : (acc.union c.aabb).lb.get a = Min.min (acc.lb.get a) ((c.aabb).lb.get a) :=
      AABB.union_lb_get acc c.aabb a
    refine ⟨?_, ?_⟩
    · calc b.lb.get a ≤ (acc.union c.aabb).lb.get a := hle
        _ ≤ acc.lb.get a := by rw [hmin]; exact min_le_left _ _
    · intro k c2 h1 h2 h3
      rcases Nat.eq_or_lt_of_le h1 with heq | hlt
      · have h3i : circles[i]? = some c2 := by rw [heq]; exact h3
        rw [hc] at h3i
        injection h3i with h4
        calc b.lb.get a ≤ (acc.union c.aabb).lb.get a := hle
          _ ≤ (c.aabb).lb.get a := by rw [hmin]; exact min_le_right _ _
          _ = (c2.aabb).lb.get a := by rw [h4]
      · exact hall k c2 (by omega) (by omega) h3

theorem rangeBounds_ub_attained (circles : List Circle) (s e : Nat) (b : AABB) (a : Nat)
    (h : rangeBounds circles s e = some b) (hs : s < e) :
    ∃ k c, s ≤ k ∧ k < e ∧ circles[k]? = some c ∧ b.ub.get a = (c.aabb).ub.get a := by
  rw [rangeBounds] at h
  rcases hc : circles[s]? with _ | c
  · rw [hc] at h; exact absurd h (by simp)
  rw [hc] at h
  simp only [boundsFold] at h
  obtain ⟨hattain, _, _⟩ := boundsFoldGo_ub circles a (e - (s + 1)) (s + 1) c.aabb b h
  rcases hattain with heq | ⟨k, c2, hk1, hk2, hk3, hk4⟩
  · exact ⟨s, c, le_refl _, hs, hc, heq⟩
  · exact ⟨k, c2, by omega, by omega, hk3, hk4⟩

theorem rangeBounds_lb_le (circles : List Circle) (s e : Nat) (b : AABB) (a : Nat)
    (h : rangeBounds circles s e = some b) :
    ∀ k c, s ≤ k → k < e → circles[k]? = some c → b.lb.get a ≤ (c.aabb).lb.get a := by
  intro k c hk1 hk2 hk3
  rw [rangeBounds] at h
  rcases hc : circles[s]? with _ | c0
  · rw [hc] at h; exact absurd h (by simp)
  rw [hc] at h
  simp only [boundsFold] at h
  obtain ⟨hle, hall⟩ := boundsFoldGo_lb circles a (e - (s + 1)) (s + 1) c0.aabb b h
  rcases Nat.eq_or_lt_of_le hk1 with heq | hlt
  · have h3i : circles[s]? = some c := by rw [heq]; exact hk3
    rw [hc] at h3i
    injection h3i with h4
    rw [← h4]
    exact hle
  · exact hall k c (by omega) (by omega) hk3

/-- The key geometric fact behind the partition's progress: the circle whose
box attains the upper corner of the range bounds on the chosen axis has its
centre at or above the spatial midpoint, so the partition never sends every
circle to the "below" side. -/
theorem exists_not_below (circles : List Circle) (s e : Nat) (b : AABB)
    (h : rangeBounds circles s e = some b) (hs : s < e) :
    ∃ k c, s ≤ k ∧ k < e ∧ circles[k]? = some c ∧
      ¬ (c.translation.get (chooseAxis (b.ub.sub b.lb)) <
        b.lb.get (chooseAxis (b.ub.sub b.lb)) +
          (b.ub.sub b.lb).get (chooseAxis (b.ub.sub b.lb)) / 2) := by
  set a := chooseAxis (b.ub.sub b.lb) with ha
  have ha3 : a < 3 := chooseAxis_lt_three _
  obtain ⟨k, c, hk1, hk2, hk3, hub⟩ := rangeBounds_ub_attained circles s e b a h hs
  have hlb := rangeBounds_lb_le circles s e b a h k c hk1 hk2 hk3
  refine ⟨k, c, hk1, hk2, hk3, ?_⟩
  rw [Circle.aabb_ub_get c a ha3] at hub
  rw [Circle.aabb_lb_get c a ha3] at hlb
  rw [Vec3.sub_get]
  set t := c.translation.get a
  set r := c.radius
  set lo := b.lb.get a
  set hi := b.ub.get a
  intro hcon
  have h1 : lo ≤ t - r := hlb
  have h2 : hi = t + r := hub
  -- from these, t ≥ lo + (hi - lo) / 2, contradicting hcon
  nlinarith [hcon, h1, h2]

/-! ### Lemmas about `listSwap` and the partition loop -/

theorem boole_count_le (l : List Circle) (i : Nat) (hi : i < l.length) (a : Circle) :
    (if l[i] == a then 1 else 0) ≤ l.count a := by
  by_cases h : l[i] == a
  · rw [if_pos h]
    have heq : l[i] = a := eq_of_beq h
    have hmem : a ∈ l := heq ▸ List.getElem_mem hi
    exact List.count_pos_iff.mpr hmem
  · rw [if_neg h]
    exact Nat.zero_le _

theorem swap_set_set_perm (l : List Circle) (i j : Nat) (hi : i < l.length)
    (hj : j < l.length) : ((l.set i l[j]).set j l[i]).Perm l := by
  rw [List.perm_iff_count]
  intro a
  have hj2 : j < (l.set i l[j]).length := by simp [hj]
  have hval : (l.set i l[j])[j] = l[j] := by
    by_cases hij : i = j
    · subst hij
      exact List.getElem_set_self hj2
    · exact List.getElem_set_ne hij hj2
  rw [List.count_set _ _ _ _ hj2, List.count_set _ _ _ _ hi, hval]
  set x := (if l[i] == a then (1 : Nat) else 0) with hx
  set y := (if l[j] == a then (1 : Nat) else 0) with hy
  have hx1 : x ≤ l.count a := boole_count_le l i hi a
  have hy1 : y ≤ l.count a := boole_count_le l j hj a
  omega

theorem listSwap_spec (l l2 : List Circle) (i j : Nat) (h : listSwap l i j = some l2) :
    l2.length = l.length ∧ l2.Perm l ∧
    l2[i]? = l[j]? ∧ l2[j]? = l[i]? ∧
    (∀ k, k ≠ i → k ≠ j → l2[k]? = l[k]?) := by
  rw [listSwap] at h
  rcases ha : l[i]? with _ | a
  · rw [ha] at h; exact absurd h (by simp)
  rcases hb : l[j]? with _ | b
  · rw [ha, hb] at h; exact absurd h (by simp)
  rw [ha, hb] at h
  simp only [Option.some.injEq] at h
  subst h
  have hi : i < l.length := by
    rcases List.getElem?_eq_some_iff.mp ha with ⟨h1, _⟩; exact h1
  have hj : j < l.length := by
    rcases List.getElem?_eq_some_iff.mp hb with ⟨h1, _⟩; exact h1
  have hav : l[i] = a := by
    rcases List.getElem?_eq_some_iff.mp ha with ⟨_, h2⟩; exact h2
  have hbv : l[j] = b := by
    rcases List.getElem?_eq_some_iff.mp hb with ⟨_, h2⟩; exact h2
  refine ⟨by simp, ?_, ?_, ?_, ?_⟩
  · have hperm := swap_set_set_perm l i j hi hj
    rw [hav, hbv] at hperm
    exact hperm
  · by_cases hij : i = j
    · subst hij
      rw [List.getElem?_set_self (by simp [hi])]
      rw [ha] at hb
      exact hb
    · rw [List.getElem?_set_ne (fun hcon => hij hcon.symm),
        List.getElem?_set_self (by simp [hi])]
  · rw [List.getElem?_set_self (by simp [hj])]
  · intro k hki hkj
    rw [List.getElem?_set_ne (fun hcon => hkj hcon.symm),
      List.getElem?_set_ne (fun hcon => hki hcon.symm)]

theorem partitionGo_spec (axis : Nat) (split : ℚ) :
    ∀ (n : Nat) (circles : List Circle) (i j i2 : Nat) (circles2 : List Circle),
      n = j + 1 - i → i ≤ j + 1 → j < circles.length →
      partitionGo axis split n circles i j = some (i2, circles2) →
      i ≤ i2 ∧ i2 ≤ j + 1 ∧ circles2.length = circles.length ∧
      (∀ k, k < i ∨ j < k → circles2[k]? = circles[k]?) ∧
      circles2.Perm circles ∧
      (∀ k, i ≤ k → k < i2 → ∃ c, circles2[k]? = some c ∧ c.translation.get axis < split) ∧
      (∀ k, i2 ≤ k → k ≤ j → ∃ c, circles2[k]? = some c ∧
        ¬ c.translation.get axis < split) := by
  intro n
  induction n with
  | zero =>
    intro circles i j i2 circles2 hn hij hjlen h
    rw [partitionGo] at h
    simp only [Option.some.injEq, Prod.mk.injEq] at h
    obtain ⟨h1, h2⟩ := h
    subst h1; subst h2
    refine ⟨le_refl _, hij, rfl, fun k _ => rfl, List.Perm.refl _, ?_, ?_⟩
    · intro k hk1 hk2; omega
    · intro k hk1 hk2; omega
  | succ n ih =>
    intro circles i j i2 circles2 hn hij hjlen h
    rw [partitionGo] at h
    have hilen : i < circles.length := by omega
    have hc : circles[i]? = some circles[i] := by simp [List.getElem?_eq_some_iff, hilen]
    rw [hc] at h
    simp only [] at h
    by_cases hcond : circles[i].translation.get axis < split
    · rw [if_pos hcond] at h
      obtain ⟨g1, g2, g3, g4, g5, g6, g7⟩ :=
        ih circles (i + 1) j i2 circles2 (by omega) (by omega) hjlen h
      refine ⟨by omega, g2, g3, ?_, g5, ?_, g7⟩
      · intro k hk
        exact g4 k (by omega)
      · intro k hk1 hk2
        rcases Nat.eq_or_lt_of_le hk1 with heq | hlt
        · refine ⟨circles[i], ?_, hcond⟩
          rw [← heq, g4 i (Or.inl (by omega)), hc]
        · exact g6 k (by omega) hk2
    · rw [if_neg hcond] at h
      rcases hsw : listSwap circles i j with _ | cs
      · rw [hsw] at h; exact absurd h (by simp)
      rw [hsw] at h
      simp only [] at h
      by_cases hj0 : j = 0
      · rw [if_pos hj0] at h; exact absurd h (by simp)
      rw [if_neg hj0] at h
      obtain ⟨w1, w2, w3, w4, w5⟩ := listSwap_spec circles cs i j hsw
      obtain ⟨g1, g2, g3, g4, g5, g6, g7⟩ :=
        ih cs i (j - 1) i2 circles2 (by omega) (by omega) (by omega) h
      refine ⟨g1, by omega, by omega, ?_, g5.trans w2, g6, ?_⟩
      · intro k hk
        rcases hk with hk | hk
        · rw [g4 k (Or.inl hk)]
          exact w5 k (by omega) (by omega)
        · rw [g4 k (Or.inr (by omega))]
          exact w5 k (by omega) (by omega)
      · intro k hk1 hk2
        rcases Nat.lt_or_ge k j with hlt | hge
        · exact g7 k hk1 (by omega)
        · have hkj : k = j := by omega
          refine ⟨circles[i], ?_, hcond⟩
          rw [hkj, g4 j (Or.inr (by omega)), w4, hc]

theorem partitionLoop_spec (circles : List Circle) (axis : Nat) (split : ℚ)
    (i j i2 : Nat) (circles2 : List Circle)
    (hij : i ≤ j + 1) (hjlen : j < circles.length)
    (h : partitionLoop circles axis split i j = some (i2, circles2)) :
    i ≤ i2 ∧ i2 ≤ j + 1 ∧ circles2.length = circles.length ∧
    (∀ k, k < i ∨ j < k → circles2[k]? = circles[k]?) ∧
    circles2.Perm circles ∧
    (∀ k, i ≤ k → k < i2 → ∃ c, circles2[k]? = some c ∧ c.translation.get axis < split) ∧
    (∀ k, i2 ≤ k → k ≤ j → ∃ c, circles2[k]? = some c ∧ ¬ c.translation.get axis < split) :=
  partitionGo_spec axis split (j + 1 - i) circles i j i2 circles2 rfl hij hjlen h

/-! ### Lemmas about `computeBounds` -/

theorem computeBounds_leaf (bvh bvh2 : BVH) (idx : Nat) (b0 : AABB) (s e : Nat)
    (hn : bvh.nodes[idx]? = some (.leaf b0 s e))
    (h : computeBounds bvh idx = some bvh2) :
    ∃ rb, rangeBounds bvh.circles s e = some rb ∧
      bvh2 = { bvh with nodes := bvh.nodes.set idx (.leaf rb s e) } := by
  rw [computeBounds, hn] at h
  simp only [] at h
  rcases hr : rangeBounds bvh.circles s e with _ | rb
  · rw [hr] at h
    exact absurd h (by simp)
  · rw [hr] at h
    simp only [Option.some.injEq] at h
    exact ⟨rb, rfl, h.symm⟩

theorem computeBounds_internal (bvh bvh2 : BVH) (idx : Nat) (b0 : AABB) (l r : Nat)
    (hn : bvh.nodes[idx]? = some (.internal b0 l r))
    (h : computeBounds bvh idx = some bvh2) :
    ∃ ln rn, bvh.nodes[l]? = some ln ∧ bvh.nodes[r]? = some rn ∧
      bvh2 = { bvh with
                 nodes := bvh.nodes.set idx (.internal (ln.bounds.union rn.bounds) l r) } := by
  rw [computeBounds, hn] at h
  simp only [] at h
  rcases hl : bvh.nodes[l]? with _ | ln
  · rw [hl] at h
    rcases hr2 : bvh.nodes[r]? with _ | rn <;> rw [hr2] at h <;> exact absurd h (by simp)
  · rw [hl] at h
    rcases hr2 : bvh.nodes[r]? with _ | rn
    · rw [hr2] at h
      exact absurd h (by simp)
    · rw [hr2] at h
      simp only [Option.some.injEq] at h
      exact ⟨ln, rn, rfl, rfl, h.symm⟩

/-- `compute_bounds` only rewrites the node at `node_idx`, keeping its kind
and non-bounds fields; everything else (the circles, the other arena
slots, the arena length) is untouched. -/
theorem computeBounds_frame (bvh bvh2 : BVH) (idx : Nat)
    (h : computeBounds bvh idx = some bvh2) :
    bvh2.circles = bvh.circles ∧
    bvh2.nodes.length = bvh.nodes.length ∧
    (∀ k, k ≠ idx → bvh2.nodes[k]? = bvh.nodes[k]?) ∧
    (∀ b0 s e, bvh.nodes[idx]? = some (.leaf b0 s e) →
      ∃ b1, bvh2.nodes[idx]? = some (.leaf b1 s e)) ∧
    (∀ b0 l r, bvh.nodes[idx]? = some (.internal b0 l r) →
      ∃ b1, bvh2.nodes[idx]? = some (.internal b1 l r)) := by
  have hidx : ∃ nd, bvh.nodes[idx]? = some nd := by
    rcases hn : bvh.nodes[idx]? with _ | nd
    · rw [computeBounds, hn] at h
      exact absurd h (by simp)
    · exact ⟨nd, rfl⟩
  obtain ⟨nd, hn⟩ := hidx
  have hlen : idx < bvh.nodes.length := by
    rcases List.getElem?_eq_some_iff.mp hn with ⟨h1, _⟩
    exact h1
  cases nd with
  | leaf b0 s e =>
    obtain ⟨rb, _, hb2⟩ := computeBounds_leaf bvh bvh2 idx b0 s e hn h
    subst hb2
    refine ⟨rfl, by simp, ?_, ?_, ?_⟩
    · intro k hk
      exact List.getElem?_set_ne (fun hcon => hk hcon.symm)
    · intro b0x sx ex hx
      rw [hn] at hx
      injection hx with hx
      cases hx
      exact ⟨rb, by rw [List.getElem?_set_self (by simp [hlen])]⟩
    · intro b0x lx rx hx
      rw [hn] at hx
      exact absurd hx (by simp)
  | internal b0 l r =>
    obtain ⟨ln, rn, _, _, hb2⟩ := computeBounds_internal bvh bvh2 idx b0 l r hn h
    subst hb2
    refine ⟨rfl, by simp, ?_, ?_, ?_⟩
    · intro k hk
      exact List.getElem?_set_ne (fun hcon => hk hcon.symm)
    · intro b0x sx ex hx
      rw [hn] at hx
      exact absurd hx (by simp)
    · intro b0x lx rx hx
      rw [hn] at hx
      injection hx with hx
      cases hx
      exact ⟨ln.bounds.union rn.bounds, by rw [List.getElem?_set_self (by simp [hlen])]⟩

/-! ### Lemmas about `countBelow` -/

theorem countBelowGo_congr (circles circles2 : List Circle) (axis : Nat) (split : ℚ) :
    ∀ (n s : Nat), (∀ k, s ≤ k → k < s + n → circles2[k]? = circles[k]?) →
      countBelowGo circles2 axis split n s = countBelowGo circles axis split n s := by
  intro n
  induction n with
  | zero => intro s _; rfl
  | succ n ih =>
    intro s h
    rw [countBelowGo, countBelowGo, h s (le_refl _) (by omega)]
    rw [ih (s + 1) (fun k h1 h2 => h k (by omega) (by omega))]

theorem countBelowGo_add (circles : List Circle) (axis : Nat) (split : ℚ) :
    ∀ (m n s : Nat), countBelowGo circles axis split (m + n) s =
      countBelowGo circles axis split m s + countBelowGo circles axis split n (s + m) := by
  intro m
  induction m with
  | zero =>
    intro n s
    simp [countBelowGo]
  | succ m ih =>
    intro n s
    have h1 : m + 1 + n = (m + n) + 1 := by omega
    rw [h1, countBelowGo, countBelowGo, ih n (s + 1)]
    have h2 : s + 1 + m = s + (m + 1) := by omega
    rw [h2]
    omega

theorem countBelowGo_all (circles : List Circle) (axis : Nat) (split : ℚ) :
    ∀ (n s : Nat),
      (∀ k, s ≤ k → k < s + n → ∃ c, circles[k]? = some c ∧ c.translation.get axis < split) →
      countBelowGo circles axis split n s = n := by
  intro n
  induction n with
  | zero => intro s _; rfl
  | succ n ih =>
    intro s h
    obtain ⟨c, hc, hcond⟩ := h s (le_refl _) (by omega)
    rw [countBelowGo, hc]
    simp only [if_pos hcond]
    rw [ih (s + 1) (fun k h1 h2 => h k (by omega) (by omega))]
    omega

theorem countBelowGo_none (circles : List Circle) (axis : Nat) (split : ℚ) :
    ∀ (n s : Nat),
      (∀ k, s ≤ k → k < s + n → ∃ c, circles[k]? = some c ∧ ¬ c.translation.get axis < split) →
      countBelowGo circles axis split n s = 0 := by
  intro n
  induction n with
  | zero => intro s _; rfl
  | succ n ih =>
    intro s h
    obtain ⟨c, hc, hcond⟩ := h s (le_refl _) (by omega)
    rw [countBelowGo, hc]
    simp only [if_neg hcond]
    rw [ih (s + 1) (fun k h1 h2 => h k (by omega) (by omega))]

/-- After the partition loop has sorted `[s, e)` into `[s, i)` below and
`[i, e)` at-or-above the plane, the below-count of the range is `i - s`. -/
theorem countBelow_of_partition (circles : List Circle) (axis : Nat) (split : ℚ)
    (s i e : Nat) (hsi : s ≤ i) (hie : i ≤ e)
    (hbelow : ∀ k, s ≤ k → k < i → ∃ c, circles[k]? = some c ∧ c.translation.get axis < split)
    (habove : ∀ k, i ≤ k → k < e → ∃ c, circles[k]? = some c ∧ ¬ c.translation.get axis < split) :
    countBelow circles axis split s e = i - s := by
  rw [countBelow]
  have h1 : e - s = (i - s) + (e - i) := by omega
  rw [h1, countBelowGo_add]
  have h2 : s + (i - s) = i := by omega
  rw [h2]
  rw [countBelowGo_all circles axis split (i - s) s
    (fun k hk1 hk2 => hbelow k hk1 (by omega))]
  rw [countBelowGo_none circles axis split (e - i) i
    (fun k hk1 hk2 => habove k hk1 (by omega))]
  omega

/-! ### Lemmas about `leafRanges` and `isChain` -/

theorem leafRanges_congr (S : Nat → Prop) :
    ∀ (fuel : Nat) (nodes nodes2 : List BVHNode) (idx : Nat),
      S idx →
      (∀ k, S k → nodes2[k]? = nodes[k]?) →
      (∀ k b l r, S k → nodes[k]? = some (.internal b l r) → S l ∧ S r) →
      leafRanges fuel nodes2 idx = leafRanges fuel nodes idx := by
  intro fuel
  induction fuel with
  | zero => intro nodes nodes2 idx _ _ _; rfl
  | succ fuel ih =>
    intro nodes nodes2 idx hS hagree hclosed
    rw [leafRanges, leafRanges, hagree idx hS]
    rcases hn : nodes[idx]? with _ | nd
    · rfl
    · cases nd with
      | leaf b s e => rfl
      | internal b l r =>
        obtain ⟨hSl, hSr⟩ := hclosed idx b l r hS hn
        show leafRanges fuel nodes2 l ++ leafRanges fuel nodes2 r =
          leafRanges fuel nodes l ++ leafRanges fuel nodes r
        rw [ih nodes nodes2 l hSl hagree hclosed, ih nodes nodes2 r hSr hagree hclosed]

theorem isChain_append (L1 L2 : List (Nat × Nat)) :
    ∀ (s m e : Nat), isChain s L1 m → isChain m L2 e → isChain s (L1 ++ L2) e := by
  induction L1 with
  | nil =>
    intro s m e h1 h2
    rw [isChain] at h1
    subst h1
    exact h2
  | cons p rest ih =>
    intro s m e h1 h2
    obtain ⟨hp, hle, hrest⟩ := h1
    exact ⟨hp, hle, ih p.2 m e hrest h2⟩

theorem isChain_le (L : List (Nat × Nat)) :
    ∀ (s e : Nat), isChain s L e → s ≤ e := by
  induction L with
  | nil => intro s e h; rw [isChain] at h; omega
  | cons p rest ih =>
    intro s e h
    obtain ⟨hp, hle, hrest⟩ := h
    have := ih p.2 e hrest
    omega

theorem isChain_countP_zero (L : List (Nat × Nat)) :
    ∀ (s e k : Nat), isChain s L e → k < s →
      L.countP (fun p => decide (p.1 ≤ k ∧ k < p.2)) = 0 := by
  induction L with
  | nil => intro s e k _ _; rfl
  | cons p rest ih =>
    intro s e k h hk
    obtain ⟨hp, hle, hrest⟩ := h
    rw [List.countP_cons]
    simp only [decide_eq_true_eq]
    have h1 : ¬ (p.1 ≤ k ∧ k < p.2) := by omega
    rw [if_neg h1]
    have h2 := ih p.2 e k hrest (by omega)
    omega

theorem isChain_countP_one (L : List (Nat × Nat)) :
    ∀ (s e k : Nat), isChain s L e → s ≤ k → k < e →
      L.countP (fun p => decide (p.1 ≤ k ∧ k < p.2)) = 1 := by
  induction L with
  | nil =>
    intro s e k h hk1 hk2
    rw [isChain] at h
    omega
  | cons p rest ih =>
    intro s e k h hk1 hk2
    obtain ⟨hp, hle, hrest⟩ := h
    by_cases hk : k < p.2
    · rw [List.countP_cons]
      simp only [decide_eq_true_eq]
      have h1 : p.1 ≤ k ∧ k < p.2 := by omega
      rw [if_pos h1]
      have h2 := isChain_countP_zero rest p.2 e k hrest hk
      omega
    · rw [List.countP_cons]
      simp only [decide_eq_true_eq]
      have h1 : ¬ (p.1 ≤ k ∧ k < p.2) := by omega
      rw [if_neg h1]
      have h2 := ih p.2 e k hrest (by omega) hk2
      omega

/-! ### The axis choice is the least index attaining the maximal extent -/

theorem chooseAxis_spec (v : Vec3) :
    (∀ i, i < 3 → v.get i ≤ v.get (chooseAxis v)) ∧
    (∀ i, i < chooseAxis v → v.get i < v.get (chooseAxis v)) := by
  have hx : v.get 0 = v.x := rfl
  have hy : v.get 1 = v.y := rfl
  have hz : v.get 2 = v.z := rfl
  simp only [chooseAxis]
  by_cases h1 : v.y > v.x
  · rw [if_pos h1]
    by_cases h2 : v.z > v.get 1
    · rw [if_pos h2]
      rw [hy] at h2
      constructor
      · intro i hi
        rcases i with _ | _ | _ | i
        · rw [hx, hz]; linarith
        · rw [hy, hz]; linarith
        · exact le_refl _
        · omega
      · intro i hi
        rcases i with _ | _ | _ | i
        · rw [hx, hz]; linarith
        · rw [hy, hz]; linarith
        · omega
        · omega
    · rw [if_neg h2]
      rw [hy] at h2
      constructor
      · intro i hi
        rcases i with _ | _ | _ | i
        · rw [hx, hy]; linarith
        · exact le_refl _
        · rw [hz, hy]; linarith
        · omega
      · intro i hi
        rcases i with _ | _ | _ | i
        · rw [hx, hy]; linarith
        · omega
        · omega
        · omega
  · rw [if_neg h1]
    by_cases h2 : v.z > v.get 0
    · rw [if_pos h2]
      rw [hx] at h2
      constructor
      · intro i hi
        rcases i with _ | _ | _ | i
        · rw [hx, hz]; linarith
        · rw [hy, hz]
          have : ¬ v.x < v.y := h1
          linarith
        · exact le_refl _
        · omega
      · intro i hi
        rcases i with _ | _ | _ | i
        · rw [hx, hz]; linarith
        · rw [hy, hz]
          have : ¬ v.x < v.y := h1
          linarith
        · omega
        · omega
    · rw [if_neg h2]
      rw [hx] at h2
      constructor
      · intro i hi
        rcases i with _ | _ | _ | i
        · exact le_refl _
        · rw [hy, hx]
          have : ¬ v.x < v.y := h1
          linarith
        · rw [hz, hx]; linarith
        · omega
      · intro i hi
        omega

/-! ### Transfer of `nodeGood` along frames -/

theorem nodeGoodLeaf_transfer (circles circles2 : List Circle) (nodes nodes2 : List BVHNode)
    (t : Nat) (b : AABB) (s1 e1 : Nat)
    (h : nodeGood circles nodes t (.leaf b s1 e1))
    (hclen : circles2.length = circles.length)
    (hagree : ∀ k, s1 ≤ k → k < e1 → circles2[k]? = circles[k]?) :
    nodeGood circles2 nodes2 t (.leaf b s1 e1) := by
  obtain ⟨hrb, hse, hel, hguard⟩ := h
  refine ⟨?_, hse, by omega, ?_⟩
  · rw [rangeBounds_congr circles circles2 s1 e1 hse hagree]
    exact hrb
  · rcases hguard with hth | hg
    · exact Or.inl hth
    · refine Or.inr ?_
      have hcc : ∀ ax sp, countBelow circles2 ax sp s1 e1 = countBelow circles ax sp s1 e1 := by
        intro ax sp
        rw [countBelow, countBelow]
        exact countBelowGo_congr circles circles2 ax sp (e1 - s1) s1
          (fun k h1 h2 => hagree k h1 (by omega))
      rw [leafGuardOK] at hg ⊢
      rw [hcc]
      exact hg

theorem nodeGoodInternal_transfer (circles circles2 : List Circle)
    (nodes nodes2 : List BVHNode) (t : Nat) (b : AABB) (l r : Nat)
    (h : nodeGood circles nodes t (.internal b l r))
    (hagreeL : nodes2[l]? = nodes[l]?) (hagreeR : nodes2[r]? = nodes[r]?) :
    nodeGood circles2 nodes2 t (.internal b l r) := by
  obtain ⟨ln, rn, hl, hr, hb⟩ := h
  exact ⟨ln, rn, by rw [hagreeL]; exact hl, by rw [hagreeR]; exact hr, hb⟩

/-! ### The main induction on `subdivide` -/

/-- The central invariant: a successful `subdivide` on a leaf produces a
well-formed subtree partitioning exactly the leaf's range, touching nothing
else. -/
theorem subdivide_spec :
    ∀ (fuel : Nat) (bvh : BVH) (idx t : Nat) (b : AABB) (s e : Nat) (bvh2 : BVH),
      bvh.nodes[idx]? = some (.leaf b s e) →
      rangeBounds bvh.circles s e = some b →
      s < e → e ≤ bvh.circles.length →
      subdivide fuel bvh idx t = some bvh2 →
      SubOut bvh bvh2 idx s e t := by
  intro fuel
  induction fuel with
  | zero =>
    intro bvh idx t b s e bvh2 _ _ _ _ hres
    rw [subdivide] at hres
    exact absurd hres (by simp)
  | succ fuel ih =>
    intro bvh idx t b s e bvh2 hnode hb hse hel hres
    have hidxlen : idx < bvh.nodes.length := by
      rcases List.getElem?_eq_some_iff.mp hnode with ⟨h1, _⟩
      exact h1
    rw [subdivide, hnode] at hres
    simp only [] at hres
    by_cases hth : e - s ≤ t
    · -- the leaf is within the threshold: nothing happens
      rw [if_pos hth] at hres
      simp only [Option.some.injEq] at hres
      subst hres
      refine ⟨le_refl _, fun k _ _ => rfl, rfl, fun k _ => rfl, List.Perm.refl _, ?_, ?_, ?_, ?_⟩
      · intro k b0 l r hk hint
        rcases hk with hk | hk
        · subst hk
          rw [hnode] at hint
          exact absurd hint (by simp)
        · rw [List.getElem?_eq_none (by omega)] at hint
          exact absurd hint (by simp)
      · intro k nd hk hnd
        rcases hk with hk | hk
        · subst hk
          rw [hnode] at hnd
          injection hnd with hnd
          subst hnd
          exact ⟨hb, hse, hel, Or.inl hth⟩
        · rw [List.getElem?_eq_none (by omega)] at hnd
          exact absurd hnd (by simp)
      · intro k b0 s1 e1 hk hnd
        rcases hk with hk | hk
        · subst hk
          rw [hnode] at hnd
          injection hnd with hnd
          injection hnd with hb1 hs1 he1
          omega
        · rw [List.getElem?_eq_none (by omega)] at hnd
          exact absurd hnd (by simp)
      · intro fuelR hfuel
        rcases fuelR with _ | m
        · omega
        · rw [leafRanges, hnode]
          exact ⟨rfl, by omega, rfl⟩
    · rw [if_neg hth] at hres
      set extent := b.ub.sub b.lb with hextent
      set ax := chooseAxis extent with hax
      set sp := b.lb.get ax + extent.get ax / 2 with hsp
      rcases hp : partitionLoop bvh.circles ax sp s (e - 1) with _ | ⟨i, circles1⟩
      · rw [hp] at hres
        exact absurd hres (by simp)
      · rw [hp] at hres
        dsimp only at hres
        have hjlen : e - 1 < bvh.circles.length := by omega
        obtain ⟨hi1, hi2x, hlen1, hframe1, hperm1, hbelow, habove⟩ :=
          partitionLoop_spec bvh.circles ax sp s (e - 1) i circles1 (by omega) hjlen hp
        have hi2 : i ≤ e := by omega
        have hframeE : ∀ k, k < s ∨ e ≤ k → circles1[k]? = bvh.circles[k]? :=
          fun k hk => hframe1 k (by omega)
        have hsliceperm : (slice circles1 s e).Perm (slice bvh.circles s e) :=
          slice_perm bvh.circles circles1 s e (by omega) hlen1 hframeE hperm1
        have hrb1 : rangeBounds circles1 s e = some b := by
          rw [rangeBounds_perm bvh.circles circles1 s e hse hel (by omega) hsliceperm]
          exact hb
        have habove2 : ∀ k, i ≤ k → k < e →
            ∃ c, circles1[k]? = some c ∧ ¬ c.translation.get ax < sp :=
          fun k h1 h2 => habove k h1 (by omega)
        by_cases hguard : i = e - 1 ∨ i = s
        · -- degenerate split: the node silently stays a terminal leaf
          rw [if_pos hguard] at hres
          simp only [Option.some.injEq] at hres
          have hn2 : bvh2.nodes = bvh.nodes := by rw [← hres]
          have hc2 : bvh2.circles = circles1 := by rw [← hres]
          have hcount : countBelow circles1 ax sp s e = i - s :=
            countBelow_of_partition circles1 ax sp s i e hi1 hi2
              (fun k h1 h2 => hbelow k h1 h2) habove2
          have hguardOK : leafGuardOK circles1 b s e := by
            show countBelow circles1 ax sp s e = 0 ∨
              countBelow circles1 ax sp s e = e - s - 1
            rcases hguard with hg | hg
            · exact Or.inr (by omega)
            · exact Or.inl (by omega)
          refine ⟨by rw [hn2], fun k _ _ => by rw [hn2], by rw [hc2]; exact hlen1,
            fun k hk => by rw [hc2]; exact hframeE k hk, by rw [hc2]; exact hperm1,
            ?_, ?_, ?_, ?_⟩
          · intro k b0 l r hk hint
            rw [hn2] at hint
            rcases hk with hk | hk
            · subst hk
              rw [hnode] at hint
              exact absurd hint (by simp)
            · rw [List.getElem?_eq_none (by omega)] at hint
              exact absurd hint (by simp)
          · intro k nd hk hnd
            rw [hn2] at hnd
            rw [hn2, hc2]
            rcases hk with hk | hk
            · subst hk
              rw [hnode] at hnd
              injection hnd with hnd
              subst hnd
              exact ⟨hrb1, hse, by omega, Or.inr hguardOK⟩
            · rw [List.getElem?_eq_none (by omega)] at hnd
              exact absurd hnd (by simp)
          · intro k b0 s1 e1 hk hnd
            rw [hn2] at hnd
            rcases hk with hk | hk
            · subst hk
              rw [hnode] at hnd
              injection hnd with hnd
              injection hnd with hb1 hs1 he1
              omega
            · rw [List.getElem?_eq_none (by omega)] at hnd
              exact absurd hnd (by simp)
          · intro fuelR hfuel
            rw [hn2] at hfuel ⊢
            rcases fuelR with _ | m
            · omega
            · rw [leafRanges, hnode]
              exact ⟨rfl, by omega, rfl⟩
        · -- real split
          rw [if_neg hguard] at hres
          have hrIdx : (bvh.nodes ++ [BVHNode.leaf AABB.default s i]).length =
              bvh.nodes.length + 1 := by simp
          rw [hrIdx] at hres
          have hsi : s < i := by
            have : i ≠ s := fun hc => hguard (Or.inr hc)
            omega
          have hie : i < e := by
            obtain ⟨k0, c0, hk01, hk02, hk0c, hk0nb⟩ := exists_not_below circles1 s e b hrb1 hse
            by_cases hki : k0 < i
            · obtain ⟨c1, hc1, hcond1⟩ := hbelow k0 hk01 hki
              rw [hk0c] at hc1
              injection hc1 with hc1
              subst hc1
              exact absurd hcond1 hk0nb
            · omega
          rcases hcb1 : computeBounds
              { nodes := bvh.nodes ++ [BVHNode.leaf AABB.default s i] ++
                  [BVHNode.leaf AABB.default i e],
                circles := circles1 } bvh.nodes.length with _ | bvh4
          · rw [hcb1] at hres
            exact absurd hres (by simp)
          rw [hcb1] at hres
          dsimp only at hres
          rcases hcb2 : computeBounds bvh4 (bvh.nodes.length + 1) with _ | bvh5
          · rw [hcb2] at hres
            exact absurd hres (by simp)
          rw [hcb2] at hres
          dsimp only at hres
          rcases hs1 : subdivide fuel bvh5 bvh.nodes.length t with _ | bvh6
          · rw [hs1] at hres
            exact absurd hres (by simp)
          rw [hs1] at hres
          dsimp only at hres
          rcases hs2 : subdivide fuel bvh6 (bvh.nodes.length + 1) t with _ | bvh7
          · rw [hs2] at hres
            exact absurd hres (by simp)
          rw [hs2] at hres
          dsimp only at hres
          -- facts about the two freshly appended leaves
          have hC_at_l : (bvh.nodes ++ [BVHNode.leaf AABB.default s i] ++
              [BVHNode.leaf AABB.default i e])[bvh.nodes.length]? =
              some (BVHNode.leaf AABB.default s i) := by
            rw [List.getElem?_append_left (by simp)]
            rw [List.getElem?_append_right (le_refl _)]
            simp
          have hC_at_r : (bvh.nodes ++ [BVHNode.leaf AABB.default s i] ++
              [BVHNode.leaf AABB.default i e])[bvh.nodes.length + 1]? =
              some (BVHNode.leaf AABB.default i e) := by
            rw [List.getElem?_append_right (by simp)]
            simp
          have hC_at_lt : ∀ k, k < bvh.nodes.length →
              (bvh.nodes ++ [BVHNode.leaf AABB.default s i] ++
                [BVHNode.leaf AABB.default i e])[k]? = bvh.nodes[k]? := by
            intro k hk
            rw [List.getElem?_append_left (by simp; omega),
              List.getElem?_append_left hk]
          obtain ⟨rbL, hrbL, hbvh4⟩ := computeBounds_leaf _ bvh4 bvh.nodes.length
            AABB.default s i hC_at_l hcb1
          have h4c : bvh4.circles = circles1 := by rw [hbvh4]
          have h4len : bvh4.nodes.length = bvh.nodes.length + 2 := by
            rw [hbvh4]; simp
          have h4_at_l : bvh4.nodes[bvh.nodes.length]? = some (BVHNode.leaf rbL s i) := by
            rw [hbvh4]
            exact List.getElem?_set_self (by simp)
          have h4_at_r : bvh4.nodes[bvh.nodes.length + 1]? =
              some (BVHNode.leaf AABB.default i e) := by
            rw [hbvh4]
            show ((bvh.nodes ++ [BVHNode.leaf AABB.default s i] ++
              [BVHNode.leaf AABB.default i e]).set bvh.nodes.length
                (BVHNode.leaf rbL s i))[bvh.nodes.length + 1]? = _
            rw [List.getElem?_set_ne (by omega)]
            exact hC_at_r
          have h4_at_lt : ∀ k, k < bvh.nodes.length → bvh4.nodes[k]? = bvh.nodes[k]? := by
            intro k hk
            rw [hbvh4]
            show ((bvh.nodes ++ [BVHNode.leaf AABB.default s i] ++
              [BVHNode.leaf AABB.default i e]).set bvh.nodes.length
                (BVHNode.leaf rbL s i))[k]? = _
            rw [List.getElem?_set_ne (by omega)]
            exact hC_at_lt k hk
          obtain ⟨rbR, hrbR0, hbvh5⟩ := computeBounds_leaf bvh4 bvh5 (bvh.nodes.length + 1)
            AABB.default i e h4_at_r hcb2
          have hrbR : rangeBounds circles1 i e = some rbR := by
            rw [← h4c]
            exact hrbR0
          have h5c : bvh5.circles = circles1 := by rw [hbvh5]; exact h4c
          have h5len : bvh5.nodes.length = bvh.nodes.length + 2 := by
            rw [hbvh5]; simp [h4len]
          have h5_at_l : bvh5.nodes[bvh.nodes.length]? = some (BVHNode.leaf rbL s i) := by
            rw [hbvh5]
            show (bvh4.nodes.set (bvh.nodes.length + 1) _)[bvh.nodes.length]? = _
            rw [List.getElem?_set_ne (by omega)]
            exact h4_at_l
          have h5_at_r : bvh5.nodes[bvh.nodes.length + 1]? =
              some (BVHNode.leaf rbR i e) := by
            rw [hbvh5]
            exact List.getElem?_set_self (by simp [h4len])
          have h5_at_lt : ∀ k, k < bvh.nodes.length → bvh5.nodes[k]? = bvh.nodes[k]? := by
            intro k hk
            rw [hbvh5]
            show (bvh4.nodes.set (bvh.nodes.length + 1) _)[k]? = _
            rw [List.getElem?_set_ne (by omega)]
            exact h4_at_lt k hk
          -- the two recursive calls
          have hO1 : SubOut bvh5 bvh6 bvh.nodes.length s i t := by
            refine ih bvh5 bvh.nodes.length t rbL s i bvh6 h5_at_l ?_ hsi ?_ hs1
            · rw [h5c]
              exact hrbL
            · rw [h5c]
              omega
          have h6_at_r : bvh6.nodes[bvh.nodes.length + 1]? = some (BVHNode.leaf rbR i e) := by
            rw [hO1.nframe (bvh.nodes.length + 1) (by omega) (by omega)]
            exact h5_at_r
          have h6clen : bvh6.circles.length = bvh.circles.length := by
            rw [hO1.clen, h5c, hlen1]
          have hO2 : SubOut bvh6 bvh7 (bvh.nodes.length + 1) i e t := by
            refine ih bvh6 (bvh.nodes.length + 1) t rbR i e bvh7 h6_at_r ?_ hie ?_ hs2
            · rw [rangeBounds_congr bvh5.circles bvh6.circles i e hie
                (fun k h1 h2 => hO1.cframe k (Or.inr h1))]
              rw [h5c]
              exact hrbR
            · omega
          have h7clen : bvh7.circles.length = bvh.circles.length := by
            rw [hO2.clen, h6clen]
          have h6len : bvh.nodes.length + 2 ≤ bvh6.nodes.length := by
            have := hO1.nlen
            omega
          have h7len : bvh6.nodes.length ≤ bvh7.nodes.length := hO2.nlen
          have hidx7 : idx < bvh7.nodes.length := by omega
          -- the final compute_bounds on the rewritten internal node
          have h8_at_idx : (bvh7.nodes.set idx (BVHNode.internal AABB.default
              bvh.nodes.length (bvh.nodes.length + 1)))[idx]? =
              some (BVHNode.internal AABB.default bvh.nodes.length
                (bvh.nodes.length + 1)) :=
            List.getElem?_set_self (by simp [hidx7])
          obtain ⟨ln, rn, h8l, h8r, hbvh2⟩ := computeBounds_internal
            { nodes := bvh7.nodes.set idx (BVHNode.internal AABB.default
                bvh.nodes.length (bvh.nodes.length + 1)),
              circles := bvh7.circles } bvh2 idx AABB.default
            bvh.nodes.length (bvh.nodes.length + 1) h8_at_idx hres
          have h7lV : bvh7.nodes[bvh.nodes.length]? = some ln := by
            rw [← h8l]
            show bvh7.nodes[bvh.nodes.length]? =
              (bvh7.nodes.set idx _)[bvh.nodes.length]?
            rw [List.getElem?_set_ne (by omega)]
          have h7rV : bvh7.nodes[bvh.nodes.length + 1]? = some rn := by
            rw [← h8r]
            show bvh7.nodes[bvh.nodes.length + 1]? =
              (bvh7.nodes.set idx _)[bvh.nodes.length + 1]?
            rw [List.getElem?_set_ne (by omega)]
          have h6lV : bvh6.nodes[bvh.nodes.length]? = some ln := by
            rw [← hO2.nframe bvh.nodes.length (by omega) (by omega)]
            exact h7lV
          have h2c : bvh2.circles = bvh7.circles := by rw [hbvh2]
          have h2len : bvh2.nodes.length = bvh7.nodes.length := by
            rw [hbvh2]; simp
          have h2_at_idx : bvh2.nodes[idx]? = some (BVHNode.internal
              (ln.bounds.union rn.bounds) bvh.nodes.length (bvh.nodes.length + 1)) := by
            rw [hbvh2]
            exact List.getElem?_set_self (by simp [hidx7])
          have h2_at_ne : ∀ k, k ≠ idx → bvh2.nodes[k]? = bvh7.nodes[k]? := by
            intro k hk
            rw [hbvh2]
            show ((bvh7.nodes.set idx _).set idx _)[k]? = _
            rw [List.getElem?_set_ne (fun hc => hk hc.symm),
              List.getElem?_set_ne (fun hc => hk hc.symm)]
          -- circle frame and permutation, composed over the whole call
          have hcframe2 : ∀ k, k < s ∨ e ≤ k → bvh2.circles[k]? = bvh.circles[k]? := by
            intro k hk
            rw [h2c, hO2.cframe k (by omega), hO1.cframe k (by omega), h5c]
            exact hframeE k hk
          have hcperm2 : bvh2.circles.Perm bvh.circles := by
            rw [h2c]
            have hp1 : bvh6.circles.Perm circles1 := by
              have := hO1.cperm
              rw [h5c] at this
              exact this
            exact hO2.cperm.trans (hp1.trans hperm1)
          -- node lookups in the final tree, by region
          have hlook_n0 : bvh2.nodes[bvh.nodes.length]? = bvh6.nodes[bvh.nodes.length]? := by
            rw [h2_at_ne bvh.nodes.length (by omega)]
            exact hO2.nframe bvh.nodes.length (by omega) (by omega)
          have hlook_mid : ∀ k, bvh.nodes.length + 2 ≤ k → k < bvh6.nodes.length →
              bvh2.nodes[k]? = bvh6.nodes[k]? := by
            intro k hk1 hk2
            rw [h2_at_ne k (by omega)]
            exact hO2.nframe k (by omega) hk2
          have hlook_hi : ∀ k, k ≠ idx → bvh2.nodes[k]? = bvh7.nodes[k]? := h2_at_ne
          refine ⟨by omega, ?_, ?_, hcframe2, hcperm2, ?_, ?_, ?_, ?_⟩
          · -- nframe
            intro k hki hklen
            rw [h2_at_ne k hki]
            rw [hO2.nframe k (by omega) (by omega)]
            rw [hO1.nframe k (by omega) (by omega)]
            exact h5_at_lt k hklen
          · -- clen
            rw [h2c, h7clen]
          · -- closed
            intro k b0 l r hk hint
            rcases hk with hk | hk
            · subst hk
              rw [h2_at_idx] at hint
              injection hint with hint
              injection hint with hb0 hl hr
              subst hl
              subst hr
              omega
            · by_cases hkn0 : k = bvh.nodes.length
              · rw [hkn0, hlook_n0] at hint
                obtain ⟨g1, g2, g3, g4, g5, g6⟩ :=
                  hO1.closed bvh.nodes.length b0 l r (Or.inl rfl) hint
                have := h5len
                omega
              · by_cases hkn1 : k = bvh.nodes.length + 1
                · rw [hkn1, h2_at_ne (bvh.nodes.length + 1) (by omega)] at hint
                  obtain ⟨g1, g2, g3, g4, g5, g6⟩ :=
                    hO2.closed (bvh.nodes.length + 1) b0 l r (Or.inl rfl) hint
                  omega
                · by_cases hkmid : k < bvh6.nodes.length
                  · rw [hlook_mid k (by omega) hkmid] at hint
                    obtain ⟨g1, g2, g3, g4, g5, g6⟩ :=
                      hO1.closed k b0 l r (Or.inr (by omega)) hint
                    have := h5len
                    omega
                  · rw [h2_at_ne k (by omega)] at hint
                    obtain ⟨g1, g2, g3, g4, g5, g6⟩ :=
                      hO2.closed k b0 l r (Or.inr (by omega)) hint
                    omega
          · -- good
            intro k nd hk hnd
            rcases hk with hk | hk
            · subst hk
              rw [h2_at_idx] at hnd
              injection hnd with hnd
              subst hnd
              refine ⟨ln, rn, ?_, ?_, rfl⟩
              · rw [hlook_n0]
                rw [← hO2.nframe bvh.nodes.length (by omega) (by omega)]
                exact h7lV
              · rw [h2_at_ne (bvh.nodes.length + 1) (by omega)]
                exact h7rV
            · by_cases hkn0 : k = bvh.nodes.length
              · rw [hkn0, hlook_n0] at hnd
                have hgood6 := hO1.good bvh.nodes.length nd (Or.inl rfl) hnd
                cases nd with
                | leaf b1 s1 e1 =>
                  obtain ⟨hsub1, hsub2⟩ :=
                    hO1.rangesub bvh.nodes.length b1 s1 e1 (Or.inl rfl) hnd
                  refine nodeGoodLeaf_transfer bvh6.circles bvh2.circles bvh6.nodes
                    bvh2.nodes t b1 s1 e1 hgood6 (by rw [h2c, hO2.clen]) ?_
                  intro k2 hk21 hk22
                  rw [h2c]
                  exact hO2.cframe k2 (Or.inl (by omega))
                | internal b1 l1 r1 =>
                  obtain ⟨g1, g2, g3, g4, g5, g6⟩ :=
                    hO1.closed bvh.nodes.length b1 l1 r1 (Or.inl rfl) hnd
                  refine nodeGoodInternal_transfer bvh6.circles bvh2.circles bvh6.nodes
                    bvh2.nodes t b1 l1 r1 hgood6 ?_ ?_
                  · exact hlook_mid l1 (by have := h5len; omega) g4
                  · exact hlook_mid r1 (by have := h5len; omega) g6
              · by_cases hkn1 : k = bvh.nodes.length + 1
                · rw [hkn1, h2_at_ne (bvh.nodes.length + 1) (by omega)] at hnd
                  have hgood7 := hO2.good (bvh.nodes.length + 1) nd (Or.inl rfl) hnd
                  cases nd with
                  | leaf b1 s1 e1 =>
                    refine nodeGoodLeaf_transfer bvh7.circles bvh2.circles bvh7.nodes
                      bvh2.nodes t b1 s1 e1 hgood7 (by rw [h2c]) ?_
                    intro k2 _ _
                    rw [h2c]
                  | internal b1 l1 r1 =>
                    obtain ⟨g1, g2, g3, g4, g5, g6⟩ :=
                      hO2.closed (bvh.nodes.length + 1) b1 l1 r1 (Or.inl rfl) hnd
                    refine nodeGoodInternal_transfer bvh7.circles bvh2.circles bvh7.nodes
                      bvh2.nodes t b1 l1 r1 hgood7 ?_ ?_
                    · exact hlook_hi l1 (by omega)
                    · exact hlook_hi r1 (by omega)
                · by_cases hkmid : k < bvh6.nodes.length
                  · rw [hlook_mid k (by omega) hkmid] at hnd
                    have hgood6 := hO1.good k nd (Or.inr (by omega)) hnd
                    cases nd with
                    | leaf b1 s1 e1 =>
                      obtain ⟨hsub1, hsub2⟩ :=
                        hO1.rangesub k b1 s1 e1 (Or.inr (by omega)) hnd
                      refine nodeGoodLeaf_transfer bvh6.circles bvh2.circles bvh6.nodes
                        bvh2.nodes t b1 s1 e1 hgood6 (by rw [h2c, hO2.clen]) ?_
                      intro k2 hk21 hk22
                      rw [h2c]
                      exact hO2.cframe k2 (Or.inl (by omega))
                    | internal b1 l1 r1 =>
                      obtain ⟨g1, g2, g3, g4, g5, g6⟩ :=
                        hO1.closed k b1 l1 r1 (Or.inr (by omega)) hnd
                      refine nodeGoodInternal_transfer bvh6.circles bvh2.circles bvh6.nodes
                        bvh2.nodes t b1 l1 r1 hgood6 ?_ ?_
                      · exact hlook_mid l1 (by have := h5len; omega) g4
                      · exact hlook_mid r1 (by have := h5len; omega) g6
                  · rw [h2_at_ne k (by omega)] at hnd
                    have hgood7 := hO2.good k nd (Or.inr (by omega)) hnd
                    cases nd with
                    | leaf b1 s1 e1 =>
                      refine nodeGoodLeaf_transfer bvh7.circles bvh2.circles bvh7.nodes
                        bvh2.nodes t b1 s1 e1 hgood7 (by rw [h2c]) ?_
                      intro k2 _ _
                      rw [h2c]
                    | internal b1 l1 r1 =>
                      obtain ⟨g1, g2, g3, g4, g5, g6⟩ :=
                        hO2.closed k b1 l1 r1 (Or.inr (by omega)) hnd
                      refine nodeGoodInternal_transfer bvh7.circles bvh2.circles bvh7.nodes
                        bvh2.nodes t b1 l1 r1 hgood7 ?_ ?_
                      · exact hlook_hi l1 (by omega)
                      · exact hlook_hi r1 (by omega)
          · -- rangesub
            intro k b0 s1 e1 hk hnd
            rcases hk with hk | hk
            · subst hk
              rw [h2_at_idx] at hnd
              exact absurd hnd (by simp)
            · by_cases hkn0 : k = bvh.nodes.length
              · rw [hkn0, hlook_n0] at hnd
                obtain ⟨hsub1, hsub2⟩ :=
                  hO1.rangesub bvh.nodes.length b0 s1 e1 (Or.inl rfl) hnd
                omega
              · by_cases hkn1 : k = bvh.nodes.length + 1
                · rw [hkn1, h2_at_ne (bvh.nodes.length + 1) (by omega)] at hnd
                  obtain ⟨hsub1, hsub2⟩ :=
                    hO2.rangesub (bvh.nodes.length + 1) b0 s1 e1 (Or.inl rfl) hnd
                  omega
                · by_cases hkmid : k < bvh6.nodes.length
                  · rw [hlook_mid k (by omega) hkmid] at hnd
                    obtain ⟨hsub1, hsub2⟩ :=
                      hO1.rangesub k b0 s1 e1 (Or.inr (by omega)) hnd
                    omega
                  · rw [h2_at_ne k (by omega)] at hnd
                    obtain ⟨hsub1, hsub2⟩ :=
                      hO2.rangesub k b0 s1 e1 (Or.inr (by omega)) hnd
                    omega
          · -- chain
            intro fuelR hfuel
            rw [h2len] at hfuel
            rcases fuelR with _ | m
            · omega
            · rw [leafRanges, h2_at_idx]
              show isChain s (leafRanges m bvh2.nodes bvh.nodes.length ++
                leafRanges m bvh2.nodes (bvh.nodes.length + 1)) e
              have hcongrL : leafRanges m bvh2.nodes bvh.nodes.length =
                  leafRanges m bvh6.nodes bvh.nodes.length := by
                refine leafRanges_congr
                  (fun k => k = bvh.nodes.length ∨
                    (bvh.nodes.length + 2 ≤ k ∧ k < bvh6.nodes.length))
                  m bvh6.nodes bvh2.nodes bvh.nodes.length (Or.inl rfl) ?_ ?_
                · intro k hkS
                  rcases hkS with hkS | hkS
                  · rw [hkS]
                    exact hlook_n0
                  · exact hlook_mid k hkS.1 hkS.2
                · intro k b1 l1 r1 hkS hint
                  rcases hkS with hkS | hkS
                  · rw [hkS] at hint
                    obtain ⟨g1, g2, g3, g4, g5, g6⟩ :=
                      hO1.closed bvh.nodes.length b1 l1 r1 (Or.inl rfl) hint
                    have := h5len
                    exact ⟨Or.inr (by omega), Or.inr (by omega)⟩
                  · obtain ⟨g1, g2, g3, g4, g5, g6⟩ :=
                      hO1.closed k b1 l1 r1 (Or.inr (by omega)) hint
                    have := h5len
                    exact ⟨Or.inr (by omega), Or.inr (by omega)⟩
              have hcongrR : leafRanges m bvh2.nodes (bvh.nodes.length + 1) =
                  leafRanges m bvh7.nodes (bvh.nodes.length + 1) := by
                refine leafRanges_congr
                  (fun k => k = bvh.nodes.length + 1 ∨
                    (bvh6.nodes.length ≤ k ∧ k < bvh7.nodes.length))
                  m bvh7.nodes bvh2.nodes (bvh.nodes.length + 1) (Or.inl rfl) ?_ ?_
                · intro k hkS
                  rcases hkS with hkS | hkS
                  · rw [hkS]
                    exact hlook_hi (bvh.nodes.length + 1) (by omega)
                  · exact hlook_hi k (by omega)
                · intro k b1 l1 r1 hkS hint
                  rcases hkS with hkS | hkS
                  · rw [hkS] at hint
                    obtain ⟨g1, g2, g3, g4, g5, g6⟩ :=
                      hO2.closed (bvh.nodes.length + 1) b1 l1 r1 (Or.inl rfl) hint
                    exact ⟨Or.inr ⟨g3, g4⟩, Or.inr ⟨g5, g6⟩⟩
                  · obtain ⟨g1, g2, g3, g4, g5, g6⟩ :=
                      hO2.closed k b1 l1 r1 (Or.inr (by omega)) hint
                    exact ⟨Or.inr ⟨g3, g4⟩, Or.inr ⟨g5, g6⟩⟩
              rw [hcongrL, hcongrR]
              have hchainL := hO1.chain m (by omega)
              have hchainR := hO2.chain m (by omega)
              exact isChain_append _ _ s i e hchainL hchainR

/-- Unfolding `build`: a successful construction is `compute_bounds` on the
initial whole-range leaf followed by `subdivide`, and the main invariant
applies to it. -/
theorem build_out (fuel : Nat) (circles : List Circle) (t : Nat) (bvh2 : BVH)
    (hne : circles ≠ [])
    (h : BVH.build fuel circles t = some bvh2) :
    ∃ rb, rangeBounds circles 0 circles.length = some rb ∧
      SubOut { nodes := [BVHNode.leaf rb 0 circles.length], circles := circles }
        bvh2 0 0 circles.length t := by
  rw [BVH.build] at h
  rcases hcb : computeBounds
      { nodes := [BVHNode.leaf AABB.default 0 circles.length], circles := circles } 0
    with _ | bvh1
  · rw [hcb] at h
    exact absurd h (by simp)
  rw [hcb] at h
  dsimp only at h
  obtain ⟨rb, hrb, hbvh1⟩ := computeBounds_leaf
    { nodes := [BVHNode.leaf AABB.default 0 circles.length], circles := circles }
    bvh1 0 AABB.default 0 circles.length rfl hcb
  have heq : bvh1 = { nodes := [BVHNode.leaf rb 0 circles.length], circles := circles } :=
    hbvh1
  have hn : 0 < circles.length := List.length_pos.mpr hne
  have out : SubOut bvh1 bvh2 0 0 circles.length t := by
    refine subdivide_spec fuel bvh1 0 t rb 0 circles.length bvh2 ?_ ?_ hn ?_ h
    · rw [heq]
      rfl
    · rw [heq]
      exact hrb
    · rw [heq]
  exact ⟨rb, hrb, heq ▸ out⟩

/-! ### The claims -/

/-- Claim C1 (code bug): the claim says that a leaf whose primitives all
coincide on the split axis is left as a terminal oversized leaf by the
degenerate-split guard, without error.  For a leaf starting at index 0 —
in particular the root — this is false: every coincident primitive
compares `not (t < split)` (the split plane passes through the common
centre), so the partition loop keeps decrementing `j`, and when `j = 0`
the `usize` subtraction `j -= 1` underflows before the guard is ever
consulted (debug builds panic there; release builds wrap `j` and panic on
the out-of-bounds `swap`).  In the embedding the construction returns
`none` for three coincident circles, for every fuel, i.e. the failure is a
genuine panic and not fuel exhaustion. -/
theorem C1_coincident_underflow : ∀ fuel, BVH.new fuel coincident3 = none := by
  intro fuel
  cases fuel with
  | zero => with_unfolding_all rfl
  | succ n => with_unfolding_all rfl

/-- Claim C2, counterexample: with threshold 1 and two primitives that
differ only in `y` (positions `(0,0,0)` and `(0,5,0)`) the partition point
is `end - 1`, the guard fires, and the tree keeps a single terminal leaf
of size `2 > 1` whose primitives are *not* coincident on every axis —
refuting "threshold respected or primitives coincident on every axis". -/
theorem C2_counterexample :
    BVH.build 10 pairY 1 = some pairYBuilt ∧
    pairYBuilt.nodes[0]? =
      some (.leaf ⟨⟨-1, -1, -1⟩, ⟨1, 6, 1⟩⟩ 0 2) ∧
    ¬ (2 - 0 ≤ 1) ∧
    ¬ coincidentRange pairYBuilt.circles 0 2 := by
  refine ⟨by with_unfolding_all rfl, by with_unfolding_all rfl, by omega, ?_⟩
  intro hco
  have hx := hco 0 1 ⟨⟨0, 0, 0⟩, 1⟩ ⟨⟨0, 5, 0⟩, 1⟩ (by omega) (by omega) (by omega) (by omega)
    (by with_unfolding_all rfl) (by with_unfolding_all rfl)
  exact absurd hx (by with_unfolding_all decide)

/-- Claim C2, as amended: for every tree returned by construction on a
non-empty input with threshold `t ≥ 1`, every terminal leaf satisfies
`end - start ≤ t`, or its midpoint partition is one-sided (the
degenerate-split guard fired): recomputing the split axis and plane from
its stored bounds, either no primitive of its range lies strictly below
the plane, or all but one do. -/
theorem C2_threshold_modulo_guard (fuel t : Nat) (circles : List Circle) (bvh2 : BVH)
    (hne : circles ≠ []) (_ht : 1 ≤ t)
    (h : BVH.build fuel circles t = some bvh2) :
    thresholdRespect bvh2 t := by
  obtain ⟨rb, hrb, out⟩ := build_out fuel circles t bvh2 hne h
  intro k b s e hnd
  have hgood := out.good k (.leaf b s e) (by show k = 0 ∨ 1 ≤ k; omega) hnd
  obtain ⟨_, _, _, hlast⟩ := hgood
  exact hlast

/-- Witness for C2's amended theorem at the `pairY` input. -/
theorem C2_threshold_modulo_guard_witness : thresholdRespect pairYBuilt 1 :=
  C2_threshold_modulo_guard 10 1 pairY pairYBuilt (by decide) (by omega)
    (by with_unfolding_all rfl)

/-- Claim C3: in every tree returned by construction, each internal node's
bounds equal the union of its two children's bounds, and each leaf's
bounds equal the union of the bounding boxes of the primitives in its
range `[start, end)`. -/
theorem C3_bounds_correct (circles : List Circle) (fuel : Nat) (bvh2 : BVH)
    (hne : circles ≠ []) (h : BVH.new fuel circles = some bvh2) :
    boundsCorrect bvh2 := by
  obtain ⟨rb, hrb, out⟩ := build_out fuel circles 2 bvh2 hne h
  intro k nd hnd
  have hgood := out.good k nd (by show k = 0 ∨ 1 ≤ k; omega) hnd
  cases nd with
  | leaf b s e =>
    obtain ⟨hb, hse, hel, _⟩ := hgood
    show unionOfRange bvh2.circles s e = some b
    rw [← rangeBounds_eq_unionOfRange bvh2.circles s e hse hel]
    exact hb
  | internal b l r =>
    exact hgood

/-- Witness for C3 at the five-circle scenario. -/
theorem C3_bounds_correct_witness : boundsCorrect scen5Built :=
  C3_bounds_correct scen5 10 scen5Built (by decide) (by with_unfolding_all rfl)

/-- Claim C4: for every non-empty input on which construction returns, the
leaf ranges reachable from the root chain from `0` to `n` (no gap, no
overlap, no omission), and every primitive index lies in exactly one
reachable leaf range. -/
theorem C4_exact_partition (circles : List Circle) (fuel : Nat) (bvh2 : BVH)
    (hne : circles ≠ []) (h : BVH.new fuel circles = some bvh2) :
    exactPartition bvh2 := by
  obtain ⟨rb, hrb, out⟩ := build_out fuel circles 2 bvh2 hne h
  have hchain := out.chain bvh2.nodes.length (by omega)
  have hcl : bvh2.circles.length = circles.length := out.clen
  refine ⟨?_, ?_⟩
  · rw [hcl]
    exact hchain
  · intro k hk
    rw [hcl] at hk
    exact isChain_countP_one _ 0 circles.length k hchain (by omega) hk

/-- Witness for C4 at the five-circle scenario. -/
theorem C4_exact_partition_witness : exactPartition scen5Built :=
  C4_exact_partition scen5 10 scen5Built (by decide) (by with_unfolding_all rfl)

/-- Claim C5: on the empty input, construction fails instead of returning
a tree — the very first leaf bounds computation reads `circles[start]`
with `start = end = 0`, which is out of range, so the embedded indexing
takes its error branch (`none`), for every fuel. -/
theorem C5_empty_input_fails :
    (∀ fuel, BVH.new fuel [] = none) ∧
    computeBounds { nodes := [BVHNode.leaf AABB.default 0 0], circles := [] } 0 = none :=
  ⟨fun _ => rfl, rfl⟩

/-- Claim C6: whenever `subdivide` splits a leaf it uses `chooseAxis` on
the extent `ub - lb` of the leaf's bounds; the chosen axis is one of
`0, 1, 2`, its extent is maximal among the three, every earlier axis has a
strictly smaller extent (so ties go to the earlier axis, exactly the
sequence "X; then Y if y-extent > x-extent; then Z if z-extent > current"),
and the split plane is `lower[axis] + extent[axis] / 2` with
`extent[axis] = ub[axis] - lb[axis]`. -/
theorem C6_axis_and_split (bounds : AABB) :
    chooseAxis (bounds.ub.sub bounds.lb) < 3 ∧
    (∀ i, i < 3 → (bounds.ub.sub bounds.lb).get i ≤
      (bounds.ub.sub bounds.lb).get (chooseAxis (bounds.ub.sub bounds.lb))) ∧
    (∀ i, i < chooseAxis (bounds.ub.sub bounds.lb) →
      (bounds.ub.sub bounds.lb).get i <
        (bounds.ub.sub bounds.lb).get (chooseAxis (bounds.ub.sub bounds.lb))) ∧
    bounds.lb.get (chooseAxis (bounds.ub.sub bounds.lb)) +
        (bounds.ub.sub bounds.lb).get (chooseAxis (bounds.ub.sub bounds.lb)) / 2 =
      bounds.lb.get (chooseAxis (bounds.ub.sub bounds.lb)) +
        (bounds.ub.get (chooseAxis (bounds.ub.sub bounds.lb)) -
          bounds.lb.get (chooseAxis (bounds.ub.sub bounds.lb))) / 2 := by
  obtain ⟨hmax, hlt⟩ := chooseAxis_spec (bounds.ub.sub bounds.lb)
  refine ⟨chooseAxis_lt_three _, hmax, hlt, ?_⟩
  rw [Vec3.sub_get]

/-- Claim C7: the concrete five-primitive scenario (x-coordinates −10, −5,
0, 5, 10; radius 1; threshold 2).  The root is split at x-midpoint 0 into
a leaf over two circles (x ∈ {−10, −5}) and an internal node over three;
that node is split at midpoint 5 into a leaf over one circle (x = 0) and a
leaf over two (x ∈ {5, 10}); the final leaves have sizes 2, 1 and 2. -/
theorem C7_scenario :
    BVH.new 10 scen5 = some scen5Built ∧
    scen5Built.nodes[0]? = some (.internal ⟨⟨-11, -1, -1⟩, ⟨11, 1, 1⟩⟩ 1 2) ∧
    scen5Built.nodes[1]? = some (.leaf ⟨⟨-11, -1, -1⟩, ⟨-4, 1, 1⟩⟩ 0 2) ∧
    scen5Built.nodes[2]? = some (.internal ⟨⟨-1, -1, -1⟩, ⟨11, 1, 1⟩⟩ 3 4) ∧
    scen5Built.nodes[3]? = some (.leaf ⟨⟨-1, -1, -1⟩, ⟨1, 1, 1⟩⟩ 2 3) ∧
    scen5Built.nodes[4]? = some (.leaf ⟨⟨4, -1, -1⟩, ⟨11, 1, 1⟩⟩ 3 5) ∧
    ((slice scen5Built.circles 0 2).map (fun c => c.translation.x)).Perm [-10, -5] ∧
    ((slice scen5Built.circles 2 3).map (fun c => c.translation.x)).Perm [0] ∧
    ((slice scen5Built.circles 3 5).map (fun c => c.translation.x)).Perm [5, 10] ∧
    chooseAxis ((AABB.mk ⟨-11, -1, -1⟩ ⟨11, 1, 1⟩).ub.sub
      (AABB.mk ⟨-11, -1, -1⟩ ⟨11, 1, 1⟩).lb) = 0 ∧
    (AABB.mk ⟨-11, -1, -1⟩ ⟨11, 1, 1⟩).lb.get 0 +
      ((AABB.mk ⟨-11, -1, -1⟩ ⟨11, 1, 1⟩).ub.sub
        (AABB.mk ⟨-11, -1, -1⟩ ⟨11, 1, 1⟩).lb).get 0 / 2 = 0 ∧
    (AABB.mk ⟨-1, -1, -1⟩ ⟨11, 1, 1⟩).lb.get 0 +
      ((AABB.mk ⟨-1, -1, -1⟩ ⟨11, 1, 1⟩).ub.sub
        (AABB.mk ⟨-1, -1, -1⟩ ⟨11, 1, 1⟩).lb).get 0 / 2 = 5 := by
  with_unfolding_all decide

/-- Claim C8: the output primitive array of every successful construction
is a permutation of the input array (same length, same multiset — the
builder only swaps in place). -/
theorem C8_circles_perm (circles : List Circle) (fuel : Nat) (bvh2 : BVH)
    (h : BVH.new fuel circles = some bvh2) :
    bvh2.circles.Perm circles := by
  rcases circles with _ | ⟨c, rest⟩
  · rw [show BVH.new fuel [] = none from rfl] at h
    exact absurd h (by simp)
  · obtain ⟨rb, hrb, out⟩ := build_out fuel (c :: rest) 2 bvh2 (by simp) h
    exact out.cperm

/-- Witness for C8 at the five-circle scenario. -/
theorem C8_circles_perm_witness : scen5Built.circles.Perm scen5 :=
  C8_circles_perm scen5 10 scen5Built (by with_unfolding_all rfl)

/-- Claim C9: construction is deterministic — two runs of `BVH::new` on
identical input sequences produce identical results (hence the same node
count, tagged structure, child indices, bounds and permuted primitive
array).  In this embedding `BVH::new` is a pure function of its input
(the source draws no randomness and spawns no threads inside `new`), so
equal inputs give equal outputs. -/
theorem C9_deterministic (c1 c2 : List Circle) (fuel : Nat) (h : c1 = c2) :
    BVH.new fuel c1 = BVH.new fuel c2 := by
  rw [h]

/-- Witness for C9 at the five-circle scenario. -/
theorem C9_deterministic_witness : BVH.new 10 scen5 = BVH.new 10 scen5 :=
  C9_deterministic scen5 scen5 10 rfl

/-- Claim C10: `compute_bounds(node_idx)` only rewrites the bounds field of
the node at `node_idx`: the circles are untouched, the arena length and
every other slot are unchanged, and the node keeps its kind and its
`start`/`end` (or `left`/`right`) fields. -/
theorem C10_computeBounds_frame (bvh bvh2 : BVH) (idx : Nat)
    (h : computeBounds bvh idx = some bvh2) :
    bvh2.circles = bvh.circles ∧
    bvh2.nodes.length = bvh.nodes.length ∧
    (∀ k, k ≠ idx → bvh2.nodes[k]? = bvh.nodes[k]?) ∧
    (∀ b0 s e, bvh.nodes[idx]? = some (.leaf b0 s e) →
      ∃ b1, bvh2.nodes[idx]? = some (.leaf b1 s e)) ∧
    (∀ b0 l r, bvh.nodes[idx]? = some (.internal b0 l r) →
      ∃ b1, bvh2.nodes[idx]? = some (.internal b1 l r)) :=
  computeBounds_frame bvh bvh2 idx h

/-- Witness for C10 on a one-leaf tree over a single circle. -/
theorem C10_computeBounds_frame_witness :
    cbResult.circles = cbInput.circles ∧
    cbResult.nodes.length = cbInput.nodes.length ∧
    (∀ k, k ≠ 0 → cbResult.nodes[k]? = cbInput.nodes[k]?) ∧
    (∀ b0 s e, cbInput.nodes[0]? = some (.leaf b0 s e) →
      ∃ b1, cbResult.nodes[0]? = some (.leaf b1 s e)) ∧
    (∀ b0 l r, cbInput.nodes[0]? = some (.internal b0 l r) →
      ∃ b1, cbResult.nodes[0]? = some (.internal b1 l r)) :=
  C10_computeBounds_frame cbInput cbResult 0 (by with_unfolding_all rfl)

end BvhSpec
